import Mathlib

/-!
Verification of the type-expression model and emission engine of a
Rust-to-TypeScript type-definition generator (`src/emit.rs`,
`src/type_expr.rs`).

The type-expression graph is embedded shallowly.  Named definitions are
kept in an arena (`Env`, a list of `TypeDefinition`); a reference to a
defined entry carries the index of the definition in the arena, which
models the by-identity (`&'static`) references of the Rust code and makes
cyclic and mutually-recursive graphs representable.  The emission engine
is embedded as a state monad over a byte sink that can fail, mirroring the
`io::Write` threading of the source; `assert_eq!` is modelled as a
distinguished non-recoverable abort.
-/

/-- An identifier (`type_expr.rs`: `struct Ident(&'static str)`). -/
structure Ident where
  name : String
deriving DecidableEq, Repr

/-- Attached documentation text (`struct Docs(&'static str)`). -/
structure Docs where
  text : String
deriving DecidableEq, Repr

/-- A string-literal type (`struct TypeString { docs, value }`). -/
structure TypeString where
  docs : Option Docs
  value : String
deriving DecidableEq, Repr

mutual

/-- The type-expression node kinds (`type_expr.rs`: `enum TypeExpr`).
Each case mirrors the corresponding Rust variant; `Ref` carries a
`TypeInfo` exactly as in the source. -/
inductive TypeExpr where
  | Ref (info : TypeInfo)
  | Name (type_name : TsTypeName)
  | Str (type_string : TypeString)
  | Tuple (docs : Option Docs) (elements : List TypeExpr)
  | Object (docs : Option Docs) (fields : List ObjectField)
  | Array (docs : Option Docs) (item : TypeExpr)
  | Union (docs : Option Docs) (members : List TypeExpr)
  | Intersection (docs : Option Docs) (members : List TypeExpr)

/-- `enum TypeInfo { Native(..), Defined(..) }`. -/
inductive TypeInfo where
  | Native (info : NativeTypeInfo)
  | Defined (info : DefinedTypeInfo)

/-- `struct NativeTypeInfo { r#ref: &'static TypeExpr }`. -/
inductive NativeTypeInfo where
  | mk (ref : TypeExpr)

/-- `struct DefinedTypeInfo { def: &'static TypeDefinition, generic_args }`.
The `&'static TypeDefinition` identity reference is modelled as an index
into the definition arena. -/
inductive DefinedTypeInfo where
  | mk (defId : Nat) (generic_args : List TypeExpr)

/-- `struct TsTypeName { path, name, generic_args }`: a direct named
reference that does not go through the definition registry. -/
inductive TsTypeName where
  | mk (path : List Ident) (name : Ident) (generic_args : List TypeExpr)

/-- `struct ObjectField { docs, name, optional, r#type }`. -/
inductive ObjectField where
  | mk (docs : Option Docs) (name : TypeString) (optional : Bool)
      (type_ : TypeExpr)

end

/-- `struct TypeDefinition { docs, path, name, generic_vars, def }`:
a named, identity-bearing, optionally namespaced, optionally generic
top-level definition.  `def` is a Lean keyword, hence `def_`. -/
structure TypeDefinition where
  docs : Option Docs
  path : List Ident
  name : Ident
  generic_vars : List Ident
  def_ : TypeExpr

/-- The definition arena: all named definitions, addressed by index
(modelling the by-identity `&'static` references of the source). -/
abbrev Env := List TypeDefinition

/-- An error value produced by the output sink (models `io::Error`,
which the core never inspects and passes through unchanged). -/
structure IoError where
  code : Nat
deriving DecidableEq, Repr

/-- How one emission invocation can abort: an `io::Error` propagated
from the sink by the `?` operator, or a fail-fast `assert_eq!` abort. -/
inductive EmitAbort where
  | ioError (e : IoError)
  | panicked (msg : String)
deriving DecidableEq, Repr

/-- The output sink.  `failAt = some k` means the sink rejects the
`k`-th write call (0-based) with error `err`; `failAt = none` is a sink
that accepts everything. -/
structure Sink where
  failAt : Option Nat
  err : IoError
deriving DecidableEq, Repr

/-- A sink that never fails. -/
def noFailSink : Sink := { failAt := none, err := { code := 0 } }

/-- The mutable per-invocation state: the bytes accepted so far by the
sink, the number of write calls made, and the running
`stats.type_definitions` counter of `EmitCtx`. -/
structure EmitState where
  buf : String
  nWrites : Nat
  type_definitions : Nat
deriving DecidableEq, Repr

/-- The initial state of one emission invocation (`EmitCtx::new`). -/
def initState : EmitState := { buf := "", nWrites := 0, type_definitions := 0 }

/-- The emission monad: reader access to the sink, state threading of
`EmitState`, and short-circuiting aborts (the `?` operator / panics). -/
def EmitM (α : Type) : Type :=
  Sink → EmitState → Except (EmitAbort × EmitState) (α × EmitState)

def EmitM.pure {α : Type} (a : α) : EmitM α := fun _ st => .ok (a, st)

def EmitM.bind {α β : Type} (m : EmitM α) (f : α → EmitM β) : EmitM β :=
  fun sk st =>
    match m sk st with
    | .ok (a, st') => f a sk st'
    | .error e => .error e

instance : Monad EmitM where
  pure := EmitM.pure
  bind := EmitM.bind

/-- One `write!` call: either the sink rejects it (the error is returned
unchanged and nothing is appended), or the bytes are appended. -/
def EmitM.write (s : String) : EmitM Unit := fun sk st =>
  if sk.failAt = some st.nWrites then .error (.ioError sk.err, st)
  else .ok ((), { st with buf := st.buf ++ s, nWrites := st.nWrites + 1 })

/-- A fail-fast `assert_eq!`-style abort (unwinds; not an `io::Result`). -/
def EmitM.panicM (msg : String) : EmitM Unit := fun _ st =>
  .error (.panicked msg, st)

/-- `self.stats.type_definitions += 1` in `EmitCtx::emit_def`. -/
def EmitM.incStat : EmitM Unit := fun _ st =>
  .ok ((), { st with type_definitions := st.type_definitions + 1 })

/-- Statistics record returned by `write_definition_file`
(`struct Stats`). -/
structure Stats where
  type_definitions : Nat
deriving DecidableEq, Repr

/-- Read back the accumulated statistics (`Ok(ctx.stats)`). -/
def EmitM.getStats : EmitM Stats := fun _ st =>
  .ok ({ type_definitions := st.type_definitions }, st)

/-- Options for `write_definition_file`
(`struct DefinitionFileOptions { header, root_namespace }`). -/
structure DefinitionFileOptions where
  header : Option String
  root_namespace : String
deriving DecidableEq, Repr

/-- The `Default` impl of `DefinitionFileOptions`. -/
def defaultOptions : DefinitionFileOptions :=
  { header := some "// AUTO-GENERATED by typescript-type-def\n"
    root_namespace := "types" }

/-- Strip one trailing carriage return (part of modelling Rust
`str::lines`, which splits at `\n` and `\r\n`). -/
def stripTrailCR (s : String) : String :=
  if s.endsWith "\r" then s.dropRight 1 else s

/-- Helper for `rustLines`: the pieces of `splitOn "\n"`; every piece but
the last was followed by a newline, and a final empty piece denotes a
trailing newline (which contributes no line). -/
def rustLinesGo : List String → List String
  | [] => []
  | [last] => if last = "" then [] else [last]
  | p :: rest => stripTrailCR p :: rustLinesGo rest

/-- Rust `str::lines`, as used by `Docs::emit`. -/
def rustLines (s : String) : List String := rustLinesGo (s.splitOn "\n")

/-- One character of Rust `{:?}` (Debug) formatting for `str`, as used by
`TypeString::emit`.  The claims only exercise plain printable ASCII; the
escapes for the exotic Unicode classes (grapheme extension etc.) are not
reproduced here. -/
def rustEscapeChar (c : Char) : String :=
  if c = '"' then "\\\""
  else if c = '\\' then "\\\\"
  else if c = '\n' then "\\n"
  else if c = '\r' then "\\r"
  else if c = '\t' then "\\t"
  else if c.toNat = 0 then "\\0"
  else if c.toNat < 32 ∨ c.toNat = 127 then
    "\\u\x7b" ++ (Nat.toDigits 16 c.toNat).asString ++ "\x7d"
  else String.singleton c

/-- Rust `write!(w, "{:?}", value)` for a `&str` value: a double-quoted,
escaped string literal. -/
def rustDebugStr (s : String) : String :=
  "\"" ++ String.join (s.toList.map rustEscapeChar) ++ "\""

/-- `impl Emit for Ident` (`emit.rs`): write the name verbatim. -/
def emitIdent (i : Ident) : EmitM Unit := EmitM.write i.name

/-- The per-line loop of `impl Emit for Docs`. -/
def emitDocLines : List String → EmitM Unit
  | [] => Pure.pure ()
  | l :: ls => do
      EmitM.write (" * " ++ l ++ "\n")
      emitDocLines ls

/-- `impl Emit for Docs` (`emit.rs`): a block comment, one comment line
per source line, verbatim. -/
def emitDocsVal (d : Docs) : EmitM Unit := do
  EmitM.write "\n"
  EmitM.write "/**\n"
  emitDocLines (rustLines d.text)
  EmitM.write " */\n"

/-- `impl Emit for Option<T>`: emit the content if present. -/
def emitDocs : Option Docs → EmitM Unit
  | some d => emitDocsVal d
  | none => Pure.pure ()

/-- `impl Emit for TypeString`: docs, then the Debug-quoted value. -/
def emitTypeString (ts : TypeString) : EmitM Unit := do
  emitDocs ts.docs
  EmitM.write (rustDebugStr ts.value)

/-- The message of the arity `assert_eq!` in `<TypeExpr as Emit>::emit`. -/
def arityMsg : String :=
  "assertion failed: generic_args.len() == generic_vars.len()"

/-- The abort used to model following a dangling arena index.  In the
source a reference is a `&'static` pointer and is always valid, so no
reachable input produced by the library hits this case. -/
def danglingMsg : String := "dangling definition reference"

mutual

/-- `impl Emit for TypeExpr` (`emit.rs` lines 144-195).  A `Ref` to a
native info delegates to the caller-supplied expression; a `Ref` to a
defined entry asserts generic-argument arity, then writes the root
namespace, each path segment followed by a dot, the name, and the
comma-joined generic arguments in angle brackets when non-empty.  The
defined entry's body is looked up in the arena only for its metadata;
its `def` field is not rendered (pattern `def: _` in the source). -/
def emitExpr (env : Env) (ns : String) : TypeExpr → EmitM Unit
  | .Ref (.Native (.mk ref)) => emitExpr env ns ref
  | .Ref (.Defined (.mk defId generic_args)) => do
      match env[defId]? with
      | none => EmitM.panicM danglingMsg
      | some d => do
          if generic_args.length = d.generic_vars.length then Pure.pure ()
          else EmitM.panicM arityMsg
          EmitM.write (ns ++ ".")
          emitPathParts env ns d.path
          emitIdent d.name
          if generic_args.isEmpty then Pure.pure ()
          else do
            EmitM.write "<"
            emitSepList env ns "," generic_args
            EmitM.write ">"
  | .Name tn => emitTsTypeName env ns tn
  | .Str ts => emitTypeString ts
  | .Tuple docs elements => do
      emitDocs docs
      EmitM.write "["
      emitSepList env ns "," elements
      EmitM.write "]"
  | .Object docs fields => do
      emitDocs docs
      EmitM.write "\x7b"
      emitFields env ns fields
      EmitM.write "\x7d"
  | .Array docs item => do
      emitDocs docs
      EmitM.write "("
      emitExpr env ns item
      EmitM.write ")[]"
  | .Union docs members => do
      emitDocs docs
      if members.isEmpty then EmitM.write "never"
      else do
        EmitM.write "("
        emitSepList env ns "|" members
        EmitM.write ")"
  | .Intersection docs members => do
      emitDocs docs
      if members.isEmpty then EmitM.write "any"
      else do
        EmitM.write "("
        emitSepList env ns "&" members
        EmitM.write ")"

/-- `impl Emit for TsTypeName` (`emit.rs` lines 197-223): path segments
each followed by a dot, the name, and comma-joined generic arguments in
angle brackets only when at least one is present.  No root-namespace
prefix is written. -/
def emitTsTypeName (env : Env) (ns : String) : TsTypeName → EmitM Unit
  | .mk path name generic_args => do
      emitPathParts env ns path
      emitIdent name
      if generic_args.isEmpty then Pure.pure ()
      else do
        EmitM.write "<"
        emitSepList env ns "," generic_args
        EmitM.write ">"

/-- The `for path_part in *path` loops of the reference renderers: each
segment followed by a dot. -/
def emitPathParts (env : Env) (ns : String) : List Ident → EmitM Unit
  | [] => Pure.pure ()
  | p :: ps => do
      emitIdent p
      EmitM.write "."
      emitPathParts env ns ps

/-- The `first`-flag separated loops (tuple elements, union and
intersection members, generic arguments): separator before every element
but the first. -/
def emitSepList (env : Env) (ns : String) (sep : String) :
    List TypeExpr → EmitM Unit
  | [] => Pure.pure ()
  | e :: es => do
      emitExpr env ns e
      emitSepTail env ns sep es

/-- Tail of `emitSepList`: every remaining element is preceded by the
separator. -/
def emitSepTail (env : Env) (ns : String) (sep : String) :
    List TypeExpr → EmitM Unit
  | [] => Pure.pure ()
  | e :: es => do
      EmitM.write sep
      emitExpr env ns e
      emitSepTail env ns sep es

/-- The field loop of `impl Emit for TypeObject` (`emit.rs` 252-276):
for each field in order, its docs, its name literal, `?` iff optional,
`:`, its type, `;`. -/
def emitFields (env : Env) (ns : String) : List ObjectField → EmitM Unit
  | [] => Pure.pure ()
  | .mk docs name optional type_ :: fs => do
      emitDocs docs
      emitTypeString name
      if optional then EmitM.write "?" else Pure.pure ()
      EmitM.write ":"
      emitExpr env ns type_
      EmitM.write ";"
      emitFields env ns fs

end

/-- Tail of `emitDotSep`. -/
def emitDotSepTail : List Ident → EmitM Unit
  | [] => Pure.pure ()
  | p :: ps => do
      EmitM.write "."
      emitIdent p
      emitDotSepTail ps

/-- The dot-separated (`first`-flag) ident join of `emit_def`'s namespace
header: a dot between segments, not after each. -/
def emitDotSep : List Ident → EmitM Unit
  | [] => Pure.pure ()
  | p :: ps => do
      emitIdent p
      emitDotSepTail ps

/-- Tail of `emitCommaIdents`. -/
def emitCommaIdentsTail : List Ident → EmitM Unit
  | [] => Pure.pure ()
  | p :: ps => do
      EmitM.write ","
      emitIdent p
      emitCommaIdentsTail ps

/-- The comma-separated generic-parameter join of `emit_def`. -/
def emitCommaIdents : List Ident → EmitM Unit
  | [] => Pure.pure ()
  | p :: ps => do
      emitIdent p
      emitCommaIdentsTail ps

/-- `EmitCtx::emit_def` (`emit.rs` lines 384-428): bump the counter,
emit docs, open a nested namespace block if the path is non-empty,
declare the type alias (with generic parameters when present), render the
body, and close what was opened. -/
def emit_def (env : Env) (ns : String) (d : TypeDefinition) : EmitM Unit := do
  EmitM.incStat
  emitDocs d.docs
  if d.path.isEmpty then Pure.pure ()
  else do
    EmitM.write "export namespace "
    emitDotSep d.path
    EmitM.write "\x7b"
  EmitM.write "export type "
  emitIdent d.name
  if d.generic_vars.isEmpty then Pure.pure ()
  else do
    EmitM.write "<"
    emitCommaIdents d.generic_vars
    EmitM.write ">"
  EmitM.write "="
  emitExpr env ns d.def_
  EmitM.write ";"
  if d.path.isEmpty then Pure.pure () else EmitM.write "\x7d"
  EmitM.write "\n"

/-- A work item of the reference-closure traversal: an expression still
to be scanned, a defined entry just encountered, or a pending
"definition fully discovered" marker that appends to the output order. -/
inductive WorkItem where
  | expr (e : TypeExpr)
  | defn (id : Nat)
  | append (id : Nat)

/-- The resolver's mutable state: the visited set (keyed on definition
identity) and the discovered definitions in emission order. -/
structure WalkState where
  visited : List Nat
  order : List Nat
deriving DecidableEq, Repr

/-- Modelled from the spec: one step of the reference-closure traversal
(the `iter_refs` module is not among the provided sources; spec sections
4.2 and 9 describe a depth-first walk of the expression tree whose
visited set is keyed on definition identity: a `Reference` to a defined
entry is recorded once and its body is recursed into on first discovery
only, so cycles cannot loop).  Discovery output is in dependencies-first
order, matching the documented example outputs in `lib.rs` (which also
show that the walk descends through the expressions behind native
references: the tuple root of the `Api` doctest is native and its member
definitions are all emitted). -/
def walkStep (env : Env) (item : WorkItem) (rest : List WorkItem)
    (st : WalkState) : List WorkItem × WalkState :=
  match item with
  | .append id => (rest, { st with order := st.order ++ [id] })
  | .defn id =>
      if id ∈ st.visited then (rest, st)
      else
        match env[id]? with
        | none => (rest, st)
        | some d =>
            (.expr d.def_ :: .append id :: rest,
             { st with visited := id :: st.visited })
  | .expr e =>
      match e with
      | .Ref (.Native (.mk ref)) => (.expr ref :: rest, st)
      | .Ref (.Defined (.mk defId generic_args)) =>
          (generic_args.map .expr ++ (.defn defId :: rest), st)
      | .Name (.mk _ _ generic_args) =>
          (generic_args.map .expr ++ rest, st)
      | .Str _ => (rest, st)
      | .Tuple _ elements => (elements.map .expr ++ rest, st)
      | .Object _ fields =>
          (fields.map (fun f => match f with
            | .mk _ _ _ type_ => .expr type_) ++ rest, st)
      | .Array _ item => (.expr item :: rest, st)
      | .Union _ members => (members.map .expr ++ rest, st)
      | .Intersection _ members => (members.map .expr ++ rest, st)

/-- Modelled from the spec: the fuelled driver of the closure traversal.
The fuel only bounds the number of steps so that the function is
structurally recursive; `walkFuel` below always suffices (proved by
`walkWork_fuel_congr`), so the cutoff is never reached on the canonical
fuel. -/
def walkWork (env : Env) : Nat → List WorkItem → WalkState → WalkState
  | 0, _, st => st
  | _ + 1, [], st => st
  | fuel + 1, item :: rest, st =>
      let p := walkStep env item rest st
      walkWork env fuel p.1 p.2

mutual

/-- The size of a type expression (a computable stand-in for `sizeOf`,
used to budget the closure traversal). -/
def sizeExpr : TypeExpr → Nat
  | .Ref info => 1 + sizeInfo info
  | .Name tn => 1 + sizeTsName tn
  | .Str _ => 1
  | .Tuple _ es => 1 + sizeList es
  | .Object _ fs => 1 + sizeFields fs
  | .Array _ item => 1 + sizeExpr item
  | .Union _ es => 1 + sizeList es
  | .Intersection _ es => 1 + sizeList es

/-- Size of a `TypeInfo`. -/
def sizeInfo : TypeInfo → Nat
  | .Native (.mk ref) => 1 + sizeExpr ref
  | .Defined (.mk _ args) => 1 + sizeList args

/-- Size of a `TsTypeName`. -/
def sizeTsName : TsTypeName → Nat
  | .mk _ _ args => 1 + sizeList args

/-- Size of a list of type expressions. -/
def sizeList : List TypeExpr → Nat
  | [] => 0
  | e :: es => 1 + sizeExpr e + sizeList es

/-- Size of a list of object fields. -/
def sizeFields : List ObjectField → Nat
  | [] => 0
  | .mk _ _ _ type_ :: fs => 1 + sizeExpr type_ + sizeFields fs

end

/-- Cost of one work item: an upper bound on the number of traversal
steps it can cause, not counting definition bodies. -/
def itemCost : WorkItem → Nat
  | .expr e => sizeExpr e
  | .defn _ => 1
  | .append _ => 1

/-- Total cost of a worklist. -/
def workCost (items : List WorkItem) : Nat := (items.map itemCost).sum

/-- The step budget contributed by one definition id if it is still
unvisited: scanning its body plus its bookkeeping steps. -/
def bodyWeight (env : Env) (id : Nat) : Nat :=
  match env[id]? with
  | some d => sizeExpr d.def_ + 2
  | none => 0

/-- The step budget of all not-yet-visited definitions. -/
def budget (env : Env) (visited : List Nat) : Nat :=
  (((List.range env.length).filter (fun i => decide (i ∉ visited))).map
    (bodyWeight env)).sum

/-- A fuel amount sufficient to run the worklist to completion. -/
def neededFuel (env : Env) (items : List WorkItem) (st : WalkState) : Nat :=
  workCost items + budget env st.visited

/-- The canonical fuel for a traversal seeded with the root info. -/
def walkFuel (env : Env) (info : TypeInfo) : Nat :=
  neededFuel env [.expr (.Ref info)] { visited := [], order := [] }

/-- Modelled from the spec: `TypeInfo::iter_refs` — the deduplicated
transitive-reference closure of a root type description, as the list of
arena indices of the discovered definitions in emission order. -/
def iter_refs (env : Env) (info : TypeInfo) : List Nat :=
  (walkWork env (walkFuel env info) [.expr (.Ref info)]
    { visited := [], order := [] }).order

/-- The body of `EmitCtx::emit_type`'s loop: emit the definition behind
each discovered arena index (`iter_refs` yields only valid indices; the
`none` case is unreachable). -/
def emitDefList (env : Env) (ns : String) : List Nat → EmitM Unit
  | [] => Pure.pure ()
  | id :: ids => do
      match env[id]? with
      | some d => emit_def env ns d
      | none => Pure.pure ()
      emitDefList env ns ids

/-- `EmitCtx::emit_type` (`emit.rs` lines 377-382): one pass over
`info.iter_refs()`, emitting each yielded definition. -/
def emit_type (env : Env) (ns : String) (info : TypeInfo) : EmitM Unit :=
  emitDefList env ns (iter_refs env info)

/-- `write_definition_file` (`emit.rs` lines 457-474): optional header,
the default-export alias, the root-namespace opener, one `emit_type`
pass, the root-namespace closer; returns the accumulated statistics. -/
def write_definition_file (env : Env) (options : DefinitionFileOptions)
    (info : TypeInfo) : EmitM Stats := do
  match options.header with
  | some h => EmitM.write (h ++ "\n")
  | none => Pure.pure ()
  EmitM.write ("export default " ++ options.root_namespace ++ ";\n")
  EmitM.write ("export namespace " ++ options.root_namespace ++ "\x7b\n")
  emit_type env options.root_namespace info
  EmitM.write "\x7d\n"
  EmitM.getStats

/-! ### Pure write traces

The emission code never branches on the sink's responses: it is a fixed
sequence of write calls, counter bumps, and possible fail-fast aborts.
The following pure functions compute that sequence, and `runSteps` plays
it back in the monad; the `..._spec` theorems below prove that each
emission function equals the playback of its trace. -/

/-- An abstract emission action at the expression level: a write of a
string, or a fail-fast abort. -/
inductive WStep where
  | write (s : String)
  | halt (msg : String)
deriving DecidableEq, Repr

/-- An abstract emission action at the definition level: additionally the
statistics-counter bump of `emit_def`. -/
inductive EmitStep where
  | write (s : String)
  | bump
  | halt (msg : String)
deriving DecidableEq, Repr

/-- Inject an expression-level action into the definition level. -/
def toEmit : WStep → EmitStep
  | .write s => .write s
  | .halt msg => .halt msg

/-- Inject a whole expression-level trace. -/
def wsteps (l : List WStep) : List EmitStep := l.map toEmit

/-- Play back a trace in the emission monad.  A halt aborts immediately
(nothing after it runs), exactly like a panic. -/
def runSteps : List EmitStep → EmitM Unit
  | [] => Pure.pure ()
  | .write s :: rest => do
      EmitM.write s
      runSteps rest
  | .bump :: rest => do
      EmitM.incStat
      runSteps rest
  | .halt msg :: _ => EmitM.panicM msg

/-- The write payloads of a trace, in order. -/
def stepsWrites (l : List EmitStep) : List String :=
  l.filterMap fun s =>
    match s with
    | .write w => some w
    | _ => none

/-- The number of write calls in a trace. -/
def numWrites (l : List EmitStep) : Nat := (stepsWrites l).length

/-- The number of counter bumps in a trace. -/
def numBumps (l : List EmitStep) : Nat :=
  l.countP fun s =>
    match s with
    | .bump => true
    | _ => false

/-- Concatenation of a list of strings. -/
def concatStrs : List String → String
  | [] => ""
  | s :: rest => s ++ concatStrs rest

/-- All bytes written by a trace, concatenated. -/
def concatWrites (l : List EmitStep) : String := concatStrs (stepsWrites l)

/-- `true` iff the trace contains no fail-fast abort. -/
def haltFree (l : List EmitStep) : Bool :=
  l.all fun s =>
    match s with
    | .halt _ => false
    | _ => true

/-- The sink does not fail on any of the write indices
`start, ..., start+len-1`. -/
def noFailIn (sk : Sink) (start len : Nat) : Prop :=
  ∀ j, sk.failAt = some j → j < start ∨ start + len ≤ j

/-- What the rendering of a reference needs to know about a definition:
its namespace path, its name, and its declared generic-parameter count.
The rendering of a reference depends on the referenced definition only
through this view — in particular never on its body. -/
structure RefView where
  path : List Ident
  name : Ident
  nVars : Nat
deriving DecidableEq, Repr

/-- The view of a definition arena exposed to reference rendering. -/
def viewOf (env : Env) : Nat → Option RefView :=
  fun id => (env[id]?).map fun d => ⟨d.path, d.name, d.generic_vars.length⟩

/-- Trace of `emitIdent`. -/
def identSteps (i : Ident) : List WStep := [.write i.name]

/-- Trace of `emitDocLines`. -/
def docLinesSteps (ls : List String) : List WStep :=
  ls.map fun l => .write (" * " ++ l ++ "\n")

/-- Trace of `emitDocsVal`. -/
def docsValSteps (d : Docs) : List WStep :=
  .write "\n" :: .write "/**\n" ::
    (docLinesSteps (rustLines d.text) ++ [.write " */\n"])

/-- Trace of `emitDocs`. -/
def docsSteps : Option Docs → List WStep
  | some d => docsValSteps d
  | none => []

/-- Trace of `emitTypeString`. -/
def typeStringSteps (ts : TypeString) : List WStep :=
  docsSteps ts.docs ++ [.write (rustDebugStr ts.value)]

/-- Trace of `emitPathParts`: each segment followed by a dot. -/
def pathPartsSteps : List Ident → List WStep
  | [] => []
  | p :: ps => .write p.name :: .write "." :: pathPartsSteps ps

mutual

/-- Trace of `emitExpr`. -/
def exprSteps (look : Nat → Option RefView) (ns : String) :
    TypeExpr → List WStep
  | .Ref (.Native (.mk ref)) => exprSteps look ns ref
  | .Ref (.Defined (.mk defId generic_args)) =>
      match look defId with
      | none => [.halt danglingMsg]
      | some v =>
          if generic_args.length = v.nVars then
            .write (ns ++ ".") ::
              (pathPartsSteps v.path ++ identSteps v.name ++
                (if generic_args.isEmpty then []
                 else .write "<" ::
                   (sepListSteps look ns "," generic_args ++ [.write ">"])))
          else [.halt arityMsg]
  | .Name tn => typeNameSteps look ns tn
  | .Str ts => typeStringSteps ts
  | .Tuple docs elements =>
      docsSteps docs ++
        (.write "[" :: (sepListSteps look ns "," elements ++ [.write "]"]))
  | .Object docs fields =>
      docsSteps docs ++
        (.write "\x7b" :: (fieldsSteps look ns fields ++ [.write "\x7d"]))
  | .Array docs item =>
      docsSteps docs ++
        (.write "(" :: (exprSteps look ns item ++ [.write ")[]"]))
  | .Union docs members =>
      docsSteps docs ++
        (if members.isEmpty then [.write "never"]
         else .write "(" :: (sepListSteps look ns "|" members ++ [.write ")"]))
  | .Intersection docs members =>
      docsSteps docs ++
        (if members.isEmpty then [.write "any"]
         else .write "(" :: (sepListSteps look ns "&" members ++ [.write ")"]))

/-- Trace of `emitTsTypeName`. -/
def typeNameSteps (look : Nat → Option RefView) (ns : String) :
    TsTypeName → List WStep
  | .mk path name generic_args =>
      pathPartsSteps path ++ identSteps name ++
        (if generic_args.isEmpty then []
         else .write "<" ::
           (sepListSteps look ns "," generic_args ++ [.write ">"]))

/-- Trace of `emitSepList`. -/
def sepListSteps (look : Nat → Option RefView) (ns : String) (sep : String) :
    List TypeExpr → List WStep
  | [] => []
  | e :: es => exprSteps look ns e ++ sepTailSteps look ns sep es

/-- Trace of `emitSepTail`. -/
def sepTailSteps (look : Nat → Option RefView) (ns : String) (sep : String) :
    List TypeExpr → List WStep
  | [] => []
  | e :: es =>
      .write sep :: (exprSteps look ns e ++ sepTailSteps look ns sep es)

/-- Trace of `emitFields`. -/
def fieldsSteps (look : Nat → Option RefView) (ns : String) :
    List ObjectField → List WStep
  | [] => []
  | .mk docs name optional type_ :: fs =>
      docsSteps docs ++ typeStringSteps name ++
        (if optional then [.write "?"] else []) ++
        (.write ":" ::
          (exprSteps look ns type_ ++
            (.write ";" :: fieldsSteps look ns fs)))

end

/-- Trace of `emitDotSepTail`. -/
def dotSepTailSteps : List Ident → List WStep
  | [] => []
  | p :: ps => .write "." :: .write p.name :: dotSepTailSteps ps

/-- Trace of `emitDotSep`. -/
def dotSepSteps : List Ident → List WStep
  | [] => []
  | p :: ps => .write p.name :: dotSepTailSteps ps

/-- Trace of `emitCommaIdentsTail`. -/
def commaIdentsTailSteps : List Ident → List WStep
  | [] => []
  | p :: ps => .write "," :: .write p.name :: commaIdentsTailSteps ps

/-- Trace of `emitCommaIdents`. -/
def commaIdentsSteps : List Ident → List WStep
  | [] => []
  | p :: ps => .write p.name :: commaIdentsTailSteps ps

/-- Trace of `emit_def`: the counter bump, then the definition text. -/
def defSteps (look : Nat → Option RefView) (ns : String)
    (d : TypeDefinition) : List EmitStep :=
  .bump ::
    wsteps
      (docsSteps d.docs ++
        (if d.path.isEmpty then []
         else .write "export namespace " ::
           (dotSepSteps d.path ++ [.write "\x7b"])) ++
        (.write "export type " :: identSteps d.name) ++
        (if d.generic_vars.isEmpty then []
         else .write "<" :: (commaIdentsSteps d.generic_vars ++ [.write ">"])) ++
        (.write "=" :: exprSteps look ns d.def_) ++
        [.write ";"] ++
        (if d.path.isEmpty then [] else [.write "\x7d"]) ++
        [.write "\n"])

/-- Trace of `emitDefList`. -/
def defListSteps (env : Env) (ns : String) : List Nat → List EmitStep
  | [] => []
  | id :: ids =>
      (match env[id]? with
       | some d => defSteps (viewOf env) ns d
       | none => []) ++ defListSteps env ns ids

/-- Trace of the whole `write_definition_file` (its final `getStats` is
not a step). -/
def fileSteps (env : Env) (options : DefinitionFileOptions)
    (info : TypeInfo) : List EmitStep :=
  (match options.header with
   | some h => [.write (h ++ "\n")]
   | none => []) ++
  (.write ("export default " ++ options.root_namespace ++ ";\n") ::
   .write ("export namespace " ++ options.root_namespace ++ "\x7b\n") ::
   (defListSteps env options.root_namespace (iter_refs env info) ++
     [.write "\x7d\n"]))

/-- The text a type expression renders as (the concatenation of its write
trace); meaningful when the trace is halt-free. -/
def renderExpr (env : Env) (ns : String) (e : TypeExpr) : String :=
  concatWrites (wsteps (exprSteps (viewOf env) ns e))

/-- The full text written by a successful `write_definition_file` run. -/
def renderFile (env : Env) (options : DefinitionFileOptions)
    (info : TypeInfo) : String :=
  concatWrites (fileSteps env options info)

/-- The ids of the pending `append` markers of a worklist (bookkeeping
for the closure-walk invariants). -/
def pendingAppends (work : List WorkItem) : List Nat :=
  work.filterMap fun i =>
    match i with
    | .append id => some id
    | _ => none

/-- Join a list of strings with a separator between elements. -/
def joinSep (sep : String) : List String → String
  | [] => ""
  | s :: rest => s ++ concatStrs (rest.map fun r => sep ++ r)

/-- The dotted-path rendering used by reference emission: every segment
followed by a dot. -/
def dotsAfter (path : List Ident) : String :=
  concatStrs (path.map fun p => p.name ++ ".")

/-- The text rendered for an optional documentation attachment. -/
def renderDocs (docs : Option Docs) : String :=
  concatWrites (wsteps (docsSteps docs))

/-- The text rendered for a string-literal type (docs, then the quoted
value). -/
def renderTypeString (ts : TypeString) : String :=
  concatWrites (wsteps (typeStringSteps ts))

/-- Modelled from the spec: one step of the resolver exactly as worded in
spec section 4.2, where native references are "treated as leaves for
resolution purposes" — the expression behind a native reference is opaque
to this resolver (unlike `walkStep`, which descends into it and is what
the documented example outputs of `lib.rs` require). -/
def specLeafStep (env : Env) (item : WorkItem) (rest : List WorkItem)
    (st : WalkState) : List WorkItem × WalkState :=
  match item with
  | .append id => (rest, { st with order := st.order ++ [id] })
  | .defn id =>
      if id ∈ st.visited then (rest, st)
      else
        match env[id]? with
        | none => (rest, st)
        | some d =>
            (.expr d.def_ :: .append id :: rest,
             { st with visited := id :: st.visited })
  | .expr e =>
      match e with
      | .Ref (.Native _) => (rest, st)
      | .Ref (.Defined (.mk defId generic_args)) =>
          (generic_args.map .expr ++ (.defn defId :: rest), st)
      | .Name (.mk _ _ generic_args) =>
          (generic_args.map .expr ++ rest, st)
      | .Str _ => (rest, st)
      | .Tuple _ elements => (elements.map .expr ++ rest, st)
      | .Object _ fields =>
          (fields.map (fun f => match f with
            | .mk _ _ _ type_ => .expr type_) ++ rest, st)
      | .Array _ item => (.expr item :: rest, st)
      | .Union _ members => (members.map .expr ++ rest, st)
      | .Intersection _ members => (members.map .expr ++ rest, st)

/-- Modelled from the spec: the fuelled driver of the leaf resolver. -/
def specLeafWork (env : Env) : Nat → List WorkItem → WalkState → WalkState
  | 0, _, st => st
  | _ + 1, [], st => st
  | fuel + 1, item :: rest, st =>
      let p := specLeafStep env item rest st
      specLeafWork env fuel p.1 p.2

/-- Modelled from the spec: one closure pass of the leaf resolver seeded
from the root with a given already-visited set; returns the state with
the newly discovered definitions in `order`. -/
def specLeafPass (env : Env) (info : TypeInfo) (visited : List Nat) :
    WalkState :=
  specLeafWork env (walkFuel env info) [.expr (.Ref info)]
    { visited := visited, order := [] }

/-- Modelled from the spec (section 4.4, step 3): "repeat closure
computation + emission until no new definitions are discovered (fixed
point)", with the closure computed by the leaf resolver of section 4.2.
The iteration count is bounded by `env.length + 1`, which the fixed-point
condition can never exceed (each productive pass discovers at least one
new definition). -/
def specFixpointRefs (env : Env) (info : TypeInfo) :
    Nat → List Nat → List Nat → List Nat
  | 0, _, acc => acc
  | n + 1, visited, acc =>
      let w := specLeafPass env info visited
      if w.order = [] then acc
      else specFixpointRefs env info n w.visited (acc ++ w.order)

/-- Modelled from the spec: the definitions that the spec's
leaf-resolver-plus-fixed-point scheme would emit, in emission order. -/
def specIterRefs (env : Env) (info : TypeInfo) : List Nat :=
  specFixpointRefs env info (env.length + 1) [] []

/-! ### Concrete data for witnesses and counterexamples -/

/-- A minimal body expression: the string-literal type `"x"`. -/
def exStr : TypeExpr := .Str { docs := none, value := "x" }

/-- A definition `Foo` at the top level with body `"x"`. -/
def exFooDef : TypeDefinition :=
  { docs := none, path := [], name := { name := "Foo" }, generic_vars := []
    def_ := exStr }

/-- An arena with the single definition `Foo`. -/
def exEnvNative : Env := [exFooDef]

/-- A root whose only reference to `Foo` sits behind a native reference
(as for a container type whose element is a defined type). -/
def exInfoNative : TypeInfo := .Native (.mk (.Ref (.Defined (.mk 0 []))))

/-- Two definitions both named `Foo`: one at the top level, one under the
namespace path `bar`. -/
def exEnvTwoFoo : Env :=
  [ { docs := none, path := [], name := { name := "Foo" }
      generic_vars := [], def_ := exStr }
  , { docs := none, path := [{ name := "bar" }], name := { name := "Foo" }
      generic_vars := [], def_ := exStr } ]

/-- A cyclic arena: `A`'s body references `B` and `B`'s body references
`A`. -/
def exEnvCyc : Env :=
  [ { docs := none, path := [], name := { name := "A" }, generic_vars := []
      def_ := .Ref (.Defined (.mk 1 [])) }
  , { docs := none, path := [], name := { name := "B" }, generic_vars := []
      def_ := .Ref (.Defined (.mk 0 [])) } ]

/-- The same names and paths as `exEnvCyc` but with different (acyclic)
bodies: used to show reference rendering does not depend on bodies. -/
def exEnvCyc2 : Env :=
  [ { docs := none, path := [], name := { name := "A" }, generic_vars := []
      def_ := exStr }
  , { docs := none, path := [], name := { name := "B" }, generic_vars := []
      def_ := exStr } ]

/-- A two-parameter generic definition named `Name` at the top level. -/
def exGenDef : TypeDefinition :=
  { docs := none, path := [], name := { name := "Name" }
    generic_vars := [{ name := "T" }, { name := "U" }], def_ := exStr }

/-- An arena with the single generic definition `Name`. -/
def exEnvGen : Env := [exGenDef]

/-- The bare type name `Arg1`. -/
def exArg1 : TypeExpr := .Name (.mk [] { name := "Arg1" } [])

/-- The bare type name `Arg2`. -/
def exArg2 : TypeExpr := .Name (.mk [] { name := "Arg2" } [])

/-- Options with no header and the default root namespace. -/
def exPlainOptions : DefinitionFileOptions :=
  { header := none, root_namespace := "types" }

/-! ## Monad and trace-playback lemmas -/

theorem EmitM.bind_def {α β : Type} (m : EmitM α) (f : α → EmitM β) :
    m >>= f = EmitM.bind m f := rfl

theorem EmitM.pure_def {α : Type} (a : α) :
    (Pure.pure a : EmitM α) = EmitM.pure a := rfl

theorem EmitM.bind_runSteps_nil (m : EmitM Unit) (sk : Sink)
    (st : EmitState) :
    EmitM.bind m (fun _ => runSteps []) sk st = m sk st := by
  simp only [runSteps, EmitM.bind, EmitM.pure_def, EmitM.pure]
  cases h : m sk st with
  | ok p => cases p with
    | mk a st' => cases a; rfl
  | error e => rfl

theorem EmitM.bind_assoc_pt {α β γ : Type} (m : EmitM α) (f : α → EmitM β)
    (g : β → EmitM γ) (sk : Sink) (st : EmitState) :
    EmitM.bind (EmitM.bind m f) g sk st =
      EmitM.bind m (fun a => EmitM.bind (f a) g) sk st := by
  simp only [EmitM.bind]
  cases m sk st with
  | ok p => rfl
  | error e => rfl

theorem EmitM.bind_congr_pt {α β : Type} (m : EmitM α) (f g : α → EmitM β)
    (sk : Sink) (st : EmitState) (h : ∀ a st', f a sk st' = g a sk st') :
    EmitM.bind m f sk st = EmitM.bind m g sk st := by
  simp only [EmitM.bind]
  cases m sk st with
  | ok p => exact h p.1 p.2
  | error e => rfl

theorem runSteps_append (l₁ l₂ : List EmitStep) (sk : Sink)
    (st : EmitState) :
    runSteps (l₁ ++ l₂) sk st =
      EmitM.bind (runSteps l₁) (fun _ => runSteps l₂) sk st := by
  induction l₁ generalizing st with
  | nil =>
    simp only [List.nil_append, runSteps, EmitM.bind, EmitM.pure_def,
      EmitM.pure]
  | cons s rest ih =>
    cases s with
    | write w =>
      simp only [List.cons_append, runSteps, EmitM.bind_def]
      rw [EmitM.bind_assoc_pt]
      exact EmitM.bind_congr_pt _ _ _ _ _ fun a st' => ih st'
    | bump =>
      simp only [List.cons_append, runSteps, EmitM.bind_def]
      rw [EmitM.bind_assoc_pt]
      exact EmitM.bind_congr_pt _ _ _ _ _ fun a st' => ih st'
    | halt msg =>
      simp only [List.cons_append, runSteps, EmitM.bind, EmitM.panicM]

theorem noFailIn_noFailSink (start len : Nat) : noFailIn noFailSink start len := by
  intro j hj
  simp [noFailSink] at hj

@[simp]
theorem stepsWrites_nil : stepsWrites [] = [] := rfl

@[simp]
theorem stepsWrites_cons_write (w : String) (l : List EmitStep) :
    stepsWrites (.write w :: l) = w :: stepsWrites l := rfl

@[simp]
theorem stepsWrites_cons_bump (l : List EmitStep) :
    stepsWrites (.bump :: l) = stepsWrites l := rfl

@[simp]
theorem stepsWrites_cons_halt (msg : String) (l : List EmitStep) :
    stepsWrites (.halt msg :: l) = stepsWrites l := rfl

@[simp]
theorem stepsWrites_append (l₁ l₂ : List EmitStep) :
    stepsWrites (l₁ ++ l₂) = stepsWrites l₁ ++ stepsWrites l₂ := by
  simp [stepsWrites]

@[simp]
theorem numWrites_nil : numWrites [] = 0 := rfl

@[simp]
theorem numWrites_cons_write (w : String) (l : List EmitStep) :
    numWrites (.write w :: l) = numWrites l + 1 := by
  simp [numWrites]

@[simp]
theorem numWrites_cons_bump (l : List EmitStep) :
    numWrites (.bump :: l) = numWrites l := rfl

@[simp]
theorem numWrites_cons_halt (msg : String) (l : List EmitStep) :
    numWrites (.halt msg :: l) = numWrites l := rfl

@[simp]
theorem numBumps_nil : numBumps [] = 0 := rfl

@[simp]
theorem numBumps_cons_write (w : String) (l : List EmitStep) :
    numBumps (.write w :: l) = numBumps l := by
  simp [numBumps, List.countP_cons]

@[simp]
theorem numBumps_cons_bump (l : List EmitStep) :
    numBumps (.bump :: l) = numBumps l + 1 := by
  simp [numBumps, List.countP_cons]

@[simp]
theorem numBumps_append (l₁ l₂ : List EmitStep) :
    numBumps (l₁ ++ l₂) = numBumps l₁ + numBumps l₂ := by
  simp [numBumps, List.countP_append]

@[simp]
theorem concatStrs_nil : concatStrs [] = "" := rfl

@[simp]
theorem concatStrs_cons (s : String) (l : List String) :
    concatStrs (s :: l) = s ++ concatStrs l := rfl

@[simp]
theorem concatStrs_append (l₁ l₂ : List String) :
    concatStrs (l₁ ++ l₂) = concatStrs l₁ ++ concatStrs l₂ := by
  induction l₁ with
  | nil => simp
  | cons s rest ih => simp [ih, String.append_assoc]

@[simp]
theorem concatWrites_nil : concatWrites [] = "" := rfl

@[simp]
theorem concatWrites_cons_write (w : String) (l : List EmitStep) :
    concatWrites (.write w :: l) = w ++ concatWrites l := rfl

@[simp]
theorem concatWrites_cons_bump (l : List EmitStep) :
    concatWrites (.bump :: l) = concatWrites l := rfl

@[simp]
theorem concatWrites_append (l₁ l₂ : List EmitStep) :
    concatWrites (l₁ ++ l₂) = concatWrites l₁ ++ concatWrites l₂ := by
  simp [concatWrites]

@[simp]
theorem haltFree_nil : haltFree [] = true := rfl

@[simp]
theorem haltFree_cons_write (w : String) (l : List EmitStep) :
    haltFree (.write w :: l) = haltFree l := by
  simp [haltFree]

@[simp]
theorem haltFree_cons_bump (l : List EmitStep) :
    haltFree (.bump :: l) = haltFree l := by
  simp [haltFree]

@[simp]
theorem haltFree_cons_halt (msg : String) (l : List EmitStep) :
    haltFree (.halt msg :: l) = false := by
  simp [haltFree]

@[simp]
theorem haltFree_append (l₁ l₂ : List EmitStep) :
    haltFree (l₁ ++ l₂) = (haltFree l₁ && haltFree l₂) := by
  simp [haltFree, List.all_append]

theorem runSteps_ok (l : List EmitStep) (sk : Sink) (st : EmitState)
    (hh : haltFree l = true)
    (hf : noFailIn sk st.nWrites (numWrites l)) :
    runSteps l sk st =
      .ok ((), { buf := st.buf ++ concatWrites l,
                 nWrites := st.nWrites + numWrites l,
                 type_definitions := st.type_definitions + numBumps l }) := by
  induction l generalizing st with
  | nil =>
    simp [runSteps, EmitM.pure_def, EmitM.pure]
  | cons s rest ih =>
    cases s with
    | write w =>
      have hne : ¬ sk.failAt = some st.nWrites := by
        intro hsome
        rcases hf st.nWrites hsome with h | h
        · omega
        · simp at h
      simp only [runSteps, EmitM.bind_def, EmitM.bind, EmitM.write,
        if_neg hne]
      rw [ih _ (by simpa using hh)]
      · simp [String.append_assoc]
        try omega
      · intro j hj
        rcases hf j hj with h | h
        · simp; omega
        · simp at h ⊢; omega
    | bump =>
      simp only [runSteps, EmitM.bind_def, EmitM.bind, EmitM.incStat]
      rw [ih _ (by simpa using hh)]
      · simp
        try omega
      · intro j hj
        rcases hf j hj with h | h
        · simp; omega
        · simp at h ⊢; omega
    | halt msg =>
      simp at hh

theorem runSteps_fail (l : List EmitStep) (sk : Sink) (st : EmitState)
    (k : Nat) (hh : haltFree l = true)
    (hfail : sk.failAt = some (st.nWrites + k))
    (hk : k < numWrites l) :
    ∃ t, runSteps l sk st =
      .error (.ioError sk.err,
        { buf := st.buf ++ concatStrs ((stepsWrites l).take k),
          nWrites := st.nWrites + k,
          type_definitions := t }) := by
  induction l generalizing st k with
  | nil => simp at hk
  | cons s rest ih =>
    cases s with
    | write w =>
      cases k with
      | zero =>
        refine ⟨st.type_definitions, ?_⟩
        have hne : sk.failAt = some st.nWrites := by simpa using hfail
        simp only [runSteps, EmitM.bind_def, EmitM.bind, EmitM.write,
          if_pos hne]
        simp
      | succ k' =>
        have hne : ¬ sk.failAt = some st.nWrites := by
          rw [hfail]
          intro hs
          have := Option.some.inj hs
          omega
        simp only [runSteps, EmitM.bind_def, EmitM.bind, EmitM.write,
          if_neg hne]
        have hfail' : sk.failAt =
            some ((st.nWrites + 1) + k') := by
          rw [hfail]; congr 1; omega
        rcases ih { st with buf := st.buf ++ w, nWrites := st.nWrites + 1 } k'
          (by simpa using hh) hfail' (by simp at hk; omega) with ⟨t, ht⟩
        refine ⟨t, ?_⟩
        rw [ht]
        simp [String.append_assoc]
        omega
    | bump =>
      simp only [runSteps, EmitM.bind_def, EmitM.bind, EmitM.incStat]
      rcases ih { st with type_definitions := st.type_definitions + 1 } k
        (by simpa using hh) (by simpa using hfail) (by simpa using hk)
        with ⟨t, ht⟩
      exact ⟨t, by rw [ht]; simp⟩
    | halt msg => simp at hh

theorem runSteps_append' (l₁ l₂ : List EmitStep) :
    runSteps (l₁ ++ l₂) = EmitM.bind (runSteps l₁) (fun _ => runSteps l₂) :=
  funext fun sk => funext fun st => runSteps_append l₁ l₂ sk st

theorem EmitM.bind_assoc' {α β γ : Type} (m : EmitM α) (f : α → EmitM β)
    (g : β → EmitM γ) :
    EmitM.bind (EmitM.bind m f) g =
      EmitM.bind m (fun a => EmitM.bind (f a) g) :=
  funext fun sk => funext fun st => EmitM.bind_assoc_pt m f g sk st

theorem EmitM.pure_bind' {α β : Type} (a : α) (f : α → EmitM β) :
    EmitM.bind (EmitM.pure a) f = f a := rfl

theorem EmitM.bind_unit_pure (m : EmitM Unit) :
    EmitM.bind m (fun _ => EmitM.pure ()) = m := by
  funext sk st
  simp only [EmitM.bind]
  cases h : m sk st with
  | ok p =>
    cases p with
    | mk a st' => cases a; rfl
  | error e => rfl

@[simp]
theorem wsteps_nil : wsteps [] = [] := rfl

@[simp]
theorem wsteps_cons (s : WStep) (l : List WStep) :
    wsteps (s :: l) = toEmit s :: wsteps l := rfl

@[simp]
theorem wsteps_append (l₁ l₂ : List WStep) :
    wsteps (l₁ ++ l₂) = wsteps l₁ ++ wsteps l₂ := by
  simp [wsteps]

@[simp]
theorem toEmit_write (s : String) : toEmit (.write s) = .write s := rfl

@[simp]
theorem toEmit_halt (msg : String) : toEmit (.halt msg) = .halt msg := rfl

theorem emitIdent_spec (i : Ident) :
    emitIdent i = runSteps (wsteps (identSteps i)) := by
  simp only [emitIdent, identSteps, wsteps, List.map_cons, List.map_nil,
    toEmit_write, runSteps, EmitM.bind_def, EmitM.pure_def,
    EmitM.bind_unit_pure]

theorem emitDocLines_spec (ls : List String) :
    emitDocLines ls = runSteps (wsteps (docLinesSteps ls)) := by
  induction ls with
  | nil => simp [emitDocLines, docLinesSteps, runSteps, EmitM.pure_def]
  | cons l rest ih =>
    simp only [emitDocLines, docLinesSteps, List.map_cons, wsteps,
      toEmit_write, runSteps, EmitM.bind_def]
    rw [ih]
    simp [wsteps, docLinesSteps]

theorem emitDocsVal_spec (d : Docs) :
    emitDocsVal d = runSteps (wsteps (docsValSteps d)) := by
  simp only [emitDocsVal, docsValSteps, wsteps, List.map_cons, List.map_nil,
    List.map_append, toEmit_write, runSteps, runSteps_append',
    EmitM.bind_def]
  rw [emitDocLines_spec]
  simp only [wsteps, runSteps, EmitM.bind_def, EmitM.pure_def,
    EmitM.bind_unit_pure, EmitM.bind_assoc']

theorem emitDocs_spec (docs : Option Docs) :
    emitDocs docs = runSteps (wsteps (docsSteps docs)) := by
  cases docs with
  | none => simp [emitDocs, docsSteps, runSteps, EmitM.pure_def]
  | some d => simpa [emitDocs, docsSteps] using emitDocsVal_spec d

theorem emitTypeString_spec (ts : TypeString) :
    emitTypeString ts = runSteps (wsteps (typeStringSteps ts)) := by
  simp only [emitTypeString, typeStringSteps, wsteps, List.map_append,
    List.map_cons, List.map_nil, toEmit_write, runSteps_append',
    EmitM.bind_def]
  rw [emitDocs_spec]
  simp only [wsteps, runSteps, EmitM.bind_def, EmitM.pure_def,
    EmitM.bind_unit_pure]

theorem emitPathParts_spec (env : Env) (ns : String) (path : List Ident) :
    emitPathParts env ns path = runSteps (wsteps (pathPartsSteps path)) := by
  induction path with
  | nil => simp [emitPathParts, pathPartsSteps, runSteps, EmitM.pure_def]
  | cons p ps ih =>
    simp only [emitPathParts, pathPartsSteps, wsteps, List.map_cons,
      toEmit_write, runSteps, EmitM.bind_def]
    rw [emitIdent_spec, ih]
    simp only [identSteps, wsteps, List.map_cons, List.map_nil, toEmit_write,
      runSteps, EmitM.bind_def, EmitM.pure_def, EmitM.bind_assoc',
      EmitM.pure_bind']

theorem emitDotSepTail_spec (path : List Ident) :
    emitDotSepTail path = runSteps (wsteps (dotSepTailSteps path)) := by
  induction path with
  | nil => simp [emitDotSepTail, dotSepTailSteps, runSteps, EmitM.pure_def]
  | cons p ps ih =>
    simp only [emitDotSepTail, dotSepTailSteps, wsteps, List.map_cons,
      toEmit_write, runSteps, EmitM.bind_def]
    rw [emitIdent_spec, ih]
    simp only [identSteps, wsteps, List.map_cons, List.map_nil, toEmit_write,
      runSteps, EmitM.bind_def, EmitM.pure_def, EmitM.bind_assoc',
      EmitM.pure_bind']

theorem emitDotSep_spec (path : List Ident) :
    emitDotSep path = runSteps (wsteps (dotSepSteps path)) := by
  cases path with
  | nil => simp [emitDotSep, dotSepSteps, runSteps, EmitM.pure_def]
  | cons p ps =>
    simp only [emitDotSep, dotSepSteps, wsteps, List.map_cons, toEmit_write,
      runSteps, EmitM.bind_def]
    rw [emitIdent_spec, emitDotSepTail_spec]
    simp only [identSteps, wsteps, List.map_cons, List.map_nil, toEmit_write,
      runSteps, EmitM.bind_def, EmitM.pure_def, EmitM.bind_assoc',
      EmitM.pure_bind']

theorem emitCommaIdentsTail_spec (l : List Ident) :
    emitCommaIdentsTail l = runSteps (wsteps (commaIdentsTailSteps l)) := by
  induction l with
  | nil => simp [emitCommaIdentsTail, commaIdentsTailSteps, runSteps,
      EmitM.pure_def]
  | cons p ps ih =>
    simp only [emitCommaIdentsTail, commaIdentsTailSteps, wsteps,
      List.map_cons, toEmit_write, runSteps, EmitM.bind_def]
    rw [emitIdent_spec, ih]
    simp only [identSteps, wsteps, List.map_cons, List.map_nil, toEmit_write,
      runSteps, EmitM.bind_def, EmitM.pure_def, EmitM.bind_assoc',
      EmitM.pure_bind']

theorem emitCommaIdents_spec (l : List Ident) :
    emitCommaIdents l = runSteps (wsteps (commaIdentsSteps l)) := by
  cases l with
  | nil => simp [emitCommaIdents, commaIdentsSteps, runSteps, EmitM.pure_def]
  | cons p ps =>
    simp only [emitCommaIdents, commaIdentsSteps, wsteps, List.map_cons,
      toEmit_write, runSteps, EmitM.bind_def]
    rw [emitIdent_spec, emitCommaIdentsTail_spec]
    simp only [identSteps, wsteps, List.map_cons, List.map_nil, toEmit_write,
      runSteps, EmitM.bind_def, EmitM.pure_def, EmitM.bind_assoc',
      EmitM.pure_bind']

theorem EmitM.panicM_bind (msg : String) (f : Unit → EmitM Unit) :
    EmitM.bind (EmitM.panicM msg) f = EmitM.panicM msg := rfl

mutual

theorem emitExpr_spec (env : Env) (ns : String) :
    (e : TypeExpr) →
      emitExpr env ns e = runSteps (wsteps (exprSteps (viewOf env) ns e))
  | .Ref (.Native (.mk ref)) => by
      simp only [emitExpr, exprSteps]
      exact emitExpr_spec env ns ref
  | .Ref (.Defined (.mk defId generic_args)) => by
      simp only [emitExpr, exprSteps]
      cases h : env[defId]? with
      | none =>
        simp only [viewOf, h, Option.map_none', wsteps, List.map_cons,
          List.map_nil, toEmit_halt, runSteps]
      | some d =>
        have hv : viewOf env defId =
            some ⟨d.path, d.name, d.generic_vars.length⟩ := by
          simp [viewOf, h]
        simp only [hv]
        by_cases harity : generic_args.length = d.generic_vars.length
        · rw [if_pos harity, if_pos harity]
          simp only [EmitM.bind_def, EmitM.pure_def, EmitM.pure_bind']
          rw [emitPathParts_spec env ns, emitIdent_spec]
          by_cases hempty : generic_args.isEmpty
          · simp only [hempty, if_pos, if_true]
            simp only [wsteps, List.map_cons, List.map_nil, List.map_append,
              toEmit_write, runSteps_append', runSteps, EmitM.bind_def,
              EmitM.pure_def, EmitM.bind_assoc', EmitM.pure_bind',
              EmitM.bind_unit_pure, List.append_nil]
          · rw [if_neg hempty, if_neg hempty]
            rw [emitSepList_spec env ns "," generic_args]
            simp only [wsteps, List.map_cons, List.map_nil, List.map_append,
              toEmit_write, runSteps_append', runSteps, EmitM.bind_def,
              EmitM.pure_def, EmitM.bind_assoc', EmitM.pure_bind',
              EmitM.bind_unit_pure]
        · rw [if_neg harity, if_neg harity]
          simp only [EmitM.bind_def, EmitM.panicM_bind, wsteps,
            List.map_cons, List.map_nil, toEmit_halt, runSteps]
  | .Name tn => by
      simp only [emitExpr, exprSteps]
      exact emitTsTypeName_spec env ns tn
  | .Str ts => by
      simp only [emitExpr, exprSteps]
      exact emitTypeString_spec ts
  | .Tuple docs elements => by
      simp only [emitExpr, exprSteps, EmitM.bind_def]
      rw [emitDocs_spec, emitSepList_spec env ns "," elements]
      simp only [wsteps, List.map_cons, List.map_nil, List.map_append,
        toEmit_write, runSteps_append', runSteps, EmitM.bind_def,
        EmitM.pure_def, EmitM.bind_assoc', EmitM.pure_bind',
        EmitM.bind_unit_pure]
  | .Object docs fields => by
      simp only [emitExpr, exprSteps, EmitM.bind_def]
      rw [emitDocs_spec, emitFields_spec env ns fields]
      simp only [wsteps, List.map_cons, List.map_nil, List.map_append,
        toEmit_write, runSteps_append', runSteps, EmitM.bind_def,
        EmitM.pure_def, EmitM.bind_assoc', EmitM.pure_bind',
        EmitM.bind_unit_pure]
  | .Array docs item => by
      simp only [emitExpr, exprSteps, EmitM.bind_def]
      rw [emitDocs_spec, emitExpr_spec env ns item]
      simp only [wsteps, List.map_cons, List.map_nil, List.map_append,
        toEmit_write, runSteps_append', runSteps, EmitM.bind_def,
        EmitM.pure_def, EmitM.bind_assoc', EmitM.pure_bind',
        EmitM.bind_unit_pure]
  | .Union docs members => by
      simp only [emitExpr, exprSteps, EmitM.bind_def]
      rw [emitDocs_spec]
      by_cases hm : members.isEmpty
      · simp only [hm, if_true, if_pos]
        simp only [wsteps, List.map_cons, List.map_nil, List.map_append,
          toEmit_write, runSteps_append', runSteps, EmitM.bind_def,
          EmitM.pure_def, EmitM.bind_assoc', EmitM.pure_bind',
          EmitM.bind_unit_pure]
      · rw [if_neg hm, if_neg hm]
        rw [emitSepList_spec env ns "|" members]
        simp only [wsteps, List.map_cons, List.map_nil, List.map_append,
          toEmit_write, runSteps_append', runSteps, EmitM.bind_def,
          EmitM.pure_def, EmitM.bind_assoc', EmitM.pure_bind',
          EmitM.bind_unit_pure]
  | .Intersection docs members => by
      simp only [emitExpr, exprSteps, EmitM.bind_def]
      rw [emitDocs_spec]
      by_cases hm : members.isEmpty
      · simp only [hm, if_true, if_pos]
        simp only [wsteps, List.map_cons, List.map_nil, List.map_append,
          toEmit_write, runSteps_append', runSteps, EmitM.bind_def,
          EmitM.pure_def, EmitM.bind_assoc', EmitM.pure_bind',
          EmitM.bind_unit_pure]
      · rw [if_neg hm, if_neg hm]
        rw [emitSepList_spec env ns "&" members]
        simp only [wsteps, List.map_cons, List.map_nil, List.map_append,
          toEmit_write, runSteps_append', runSteps, EmitM.bind_def,
          EmitM.pure_def, EmitM.bind_assoc', EmitM.pure_bind',
          EmitM.bind_unit_pure]

theorem emitTsTypeName_spec (env : Env) (ns : String) :
    (tn : TsTypeName) →
      emitTsTypeName env ns tn =
        runSteps (wsteps (typeNameSteps (viewOf env) ns tn))
  | .mk path name generic_args => by
      simp only [emitTsTypeName, typeNameSteps, EmitM.bind_def]
      rw [emitPathParts_spec env ns, emitIdent_spec]
      by_cases hempty : generic_args.isEmpty
      · simp only [hempty, if_true, if_pos]
        simp only [wsteps, List.map_cons, List.map_nil, List.map_append,
          toEmit_write, runSteps_append', runSteps, EmitM.bind_def,
          EmitM.pure_def, EmitM.bind_assoc', EmitM.pure_bind',
          EmitM.bind_unit_pure, List.append_nil]
      · rw [if_neg hempty, if_neg hempty]
        rw [emitSepList_spec env ns "," generic_args]
        simp only [wsteps, List.map_cons, List.map_nil, List.map_append,
          toEmit_write, runSteps_append', runSteps, EmitM.bind_def,
          EmitM.pure_def, EmitM.bind_assoc', EmitM.pure_bind',
          EmitM.bind_unit_pure]

theorem emitSepList_spec (env : Env) (ns : String) (sep : String) :
    (es : List TypeExpr) →
      emitSepList env ns sep es =
        runSteps (wsteps (sepListSteps (viewOf env) ns sep es))
  | [] => by
      simp [emitSepList, sepListSteps, runSteps, EmitM.pure_def]
  | e :: es => by
      simp only [emitSepList, sepListSteps, EmitM.bind_def]
      rw [emitExpr_spec env ns e, emitSepTail_spec env ns sep es]
      simp only [wsteps, List.map_cons, List.map_nil, List.map_append,
        toEmit_write, runSteps_append', runSteps, EmitM.bind_def,
        EmitM.pure_def, EmitM.bind_assoc', EmitM.pure_bind',
        EmitM.bind_unit_pure]

theorem emitSepTail_spec (env : Env) (ns : String) (sep : String) :
    (es : List TypeExpr) →
      emitSepTail env ns sep es =
        runSteps (wsteps (sepTailSteps (viewOf env) ns sep es))
  | [] => by
      simp [emitSepTail, sepTailSteps, runSteps, EmitM.pure_def]
  | e :: es => by
      simp only [emitSepTail, sepTailSteps, EmitM.bind_def]
      rw [emitExpr_spec env ns e, emitSepTail_spec env ns sep es]
      simp only [wsteps, List.map_cons, List.map_nil, List.map_append,
        toEmit_write, runSteps_append', runSteps, EmitM.bind_def,
        EmitM.pure_def, EmitM.bind_assoc', EmitM.pure_bind',
        EmitM.bind_unit_pure]

theorem emitFields_spec (env : Env) (ns : String) :
    (fs : List ObjectField) →
      emitFields env ns fs =
        runSteps (wsteps (fieldsSteps (viewOf env) ns fs))
  | [] => by
      simp [emitFields, fieldsSteps, runSteps, EmitM.pure_def]
  | .mk docs name optional type_ :: fs => by
      simp only [emitFields, fieldsSteps, EmitM.bind_def]
      rw [emitDocs_spec, emitTypeString_spec, emitExpr_spec env ns type_,
        emitFields_spec env ns fs]
      by_cases hopt : optional = true
      · simp only [hopt, if_true, if_pos]
        simp only [wsteps, List.map_cons, List.map_nil, List.map_append,
          toEmit_write, runSteps_append', runSteps, EmitM.bind_def,
          EmitM.pure_def, EmitM.bind_assoc', EmitM.pure_bind',
          EmitM.bind_unit_pure]
      · have hopt' : optional = false := by
          cases optional
          · rfl
          · exact absurd rfl hopt
        simp only [hopt']
        rw [if_neg Bool.false_ne_true]
        simp only [wsteps, List.map_cons, List.map_nil, List.map_append,
          toEmit_write, runSteps_append', runSteps, EmitM.bind_def,
          EmitM.pure_def, EmitM.bind_assoc', EmitM.pure_bind',
          EmitM.bind_unit_pure, List.append_nil, List.nil_append]

end

theorem emit_def_spec (env : Env) (ns : String) (d : TypeDefinition) :
    emit_def env ns d = runSteps (defSteps (viewOf env) ns d) := by
  simp only [emit_def, defSteps, EmitM.bind_def]
  rw [emitDocs_spec, emitIdent_spec, emitDotSep_spec, emitCommaIdents_spec,
    emitExpr_spec env ns]
  rcases Bool.eq_false_or_eq_true d.path.isEmpty with hp | hp <;>
  rcases Bool.eq_false_or_eq_true d.generic_vars.isEmpty with hg | hg <;>
    simp only [hp, hg, Bool.false_eq_true, if_false, if_true,
      eq_self_iff_true, ite_true, ite_false] <;>
    simp only [wsteps, List.map_cons, List.map_nil, List.map_append,
      toEmit_write, runSteps_append', runSteps, EmitM.bind_def,
      EmitM.pure_def, EmitM.bind_assoc', EmitM.pure_bind',
      EmitM.bind_unit_pure, List.append_nil, List.nil_append]

theorem emitDefList_spec (env : Env) (ns : String) (ids : List Nat) :
    emitDefList env ns ids = runSteps (defListSteps env ns ids) := by
  induction ids with
  | nil => simp [emitDefList, defListSteps, runSteps, EmitM.pure_def]
  | cons id rest ih =>
    simp only [emitDefList, defListSteps, EmitM.bind_def]
    cases h : env[id]? with
    | none =>
      simp only [h]
      rw [ih]
      simp only [runSteps_append', List.nil_append, runSteps,
        EmitM.pure_def, EmitM.pure_bind', EmitM.bind_def]
    | some d =>
      simp only [h]
      rw [emit_def_spec, ih]
      simp only [runSteps_append', EmitM.bind_def]

theorem emit_type_spec (env : Env) (ns : String) (info : TypeInfo) :
    emit_type env ns info =
      runSteps (defListSteps env ns (iter_refs env info)) := by
  simp only [emit_type]
  exact emitDefList_spec env ns (iter_refs env info)

theorem write_definition_file_spec (env : Env)
    (options : DefinitionFileOptions) (info : TypeInfo) :
    write_definition_file env options info =
      EmitM.bind (runSteps (fileSteps env options info))
        (fun _ => EmitM.getStats) := by
  simp only [write_definition_file, fileSteps, EmitM.bind_def]
  rw [emit_type_spec]
  cases options.header with
  | none =>
    simp only [List.nil_append, runSteps, EmitM.bind_def, EmitM.pure_def,
      EmitM.bind_assoc', EmitM.pure_bind', runSteps_append']
  | some h =>
    simp only [List.cons_append, List.nil_append, runSteps, EmitM.bind_def,
      EmitM.pure_def, EmitM.bind_assoc', EmitM.pure_bind', runSteps_append']

/-! ## Closure-walk lemmas: termination, dedup, validity -/

theorem sizeExpr_pos (e : TypeExpr) : 1 ≤ sizeExpr e := by
  cases e <;> simp [sizeExpr]

theorem itemCost_pos (i : WorkItem) : 1 ≤ itemCost i := by
  cases i with
  | expr e => exact sizeExpr_pos e
  | defn id => simp [itemCost]
  | append id => simp [itemCost]

@[simp]
theorem workCost_nil : workCost [] = 0 := rfl

@[simp]
theorem workCost_cons (i : WorkItem) (l : List WorkItem) :
    workCost (i :: l) = itemCost i + workCost l := by
  simp [workCost]

@[simp]
theorem workCost_append (a b : List WorkItem) :
    workCost (a ++ b) = workCost a + workCost b := by
  simp [workCost]

theorem workCost_map_expr (es : List TypeExpr) :
    workCost (es.map WorkItem.expr) = (es.map sizeExpr).sum := by
  induction es with
  | nil => rfl
  | cons e rest ih => simp [itemCost, ih]

theorem sum_sizeExpr_le_sizeList (es : List TypeExpr) :
    (es.map sizeExpr).sum ≤ sizeList es := by
  induction es with
  | nil => simp [sizeList]
  | cons e rest ih => simp [sizeList]; omega

theorem workCost_fields (fs : List ObjectField) :
    workCost (fs.map fun f =>
      match f with
      | .mk _ _ _ type_ => WorkItem.expr type_) ≤ sizeFields fs := by
  induction fs with
  | nil => simp [sizeFields]
  | cons f rest ih =>
    cases f with
    | mk docs name optional type_ =>
      simp only [List.map_cons, workCost_cons, itemCost, sizeFields]
      omega

theorem sum_filter_erase (l : List Nat) (f : Nat → Nat) (v : List Nat)
    (id : Nat) :
    l.Nodup → id ∈ l → id ∉ v →
    ((l.filter fun i => decide (i ∉ v)).map f).sum =
      ((l.filter fun i => decide (i ∉ id :: v)).map f).sum + f id := by
  induction l with
  | nil => intro _ h; simp at h
  | cons a rest ih =>
    intro hnd hmem hv
    have hnd' : rest.Nodup := (List.nodup_cons.mp hnd).2
    have hanr : a ∉ rest := (List.nodup_cons.mp hnd).1
    rcases List.mem_cons.mp hmem with heq | hmem'
    · subst heq
      have h1 : (decide (id ∉ v)) = true := by simp [hv]
      have h2 : (decide (id ∉ id :: v)) = false := by simp
      rw [List.filter_cons, List.filter_cons, h1, h2,
        if_pos rfl, if_neg Bool.false_ne_true]
      simp only [List.map_cons, List.sum_cons]
      have hcongr : rest.filter (fun i => decide (i ∉ v)) =
          rest.filter (fun i => decide (i ∉ id :: v)) := by
        apply List.filter_congr
        intro x hx
        have hxa : x ≠ id := fun h => hanr (h ▸ hx)
        simp [List.mem_cons, hxa]
      rw [hcongr]
      omega
    · have haid : a ≠ id := fun h => hanr (h ▸ hmem')
      have hsame : (decide (a ∉ id :: v)) = (decide (a ∉ v)) := by
        simp [List.mem_cons, haid]
      simp only [List.filter_cons, hsame]
      rcases Bool.eq_false_or_eq_true (decide (a ∉ v)) with hb | hb
      · rw [hb, if_pos rfl, if_pos rfl]
        simp only [List.map_cons, List.sum_cons]
        rw [ih hnd' hmem' hv]
        omega
      · rw [hb, if_neg Bool.false_ne_true, if_neg Bool.false_ne_true]
        exact ih hnd' hmem' hv

theorem budget_cons (env : Env) (visited : List Nat) (id : Nat)
    (hlt : id < env.length) (hnv : id ∉ visited) :
    budget env visited = budget env (id :: visited) + bodyWeight env id := by
  unfold budget
  exact sum_filter_erase (List.range env.length) (bodyWeight env) visited id
    (List.nodup_range _) (List.mem_range.mpr hlt) hnv

theorem getElem?_some_lt (env : Env) (id : Nat) (d : TypeDefinition)
    (h : env[id]? = some d) : id < env.length := by
  by_contra hge
  rw [List.getElem?_eq_none (by omega)] at h
  exact Option.noConfusion h

theorem walkStep_needed (env : Env) (item : WorkItem)
    (rest : List WorkItem) (st : WalkState) :
    neededFuel env (walkStep env item rest st).1
        (walkStep env item rest st).2 + 1 ≤
      neededFuel env (item :: rest) st := by
  cases item with
  | append id =>
    simp [walkStep, neededFuel, itemCost]
    omega
  | defn id =>
    by_cases hmem : id ∈ st.visited
    · simp [walkStep, hmem, neededFuel, itemCost]
      omega
    · cases h : env[id]? with
      | none =>
        simp [walkStep, hmem, h, neededFuel, itemCost]
        omega
      | some d =>
        have hlt : id < env.length := getElem?_some_lt env id d h
        have hb := budget_cons env st.visited id hlt hmem
        simp only [walkStep]
        rw [if_neg hmem]
        simp only [h, neededFuel, workCost_cons, workCost_append, itemCost]
        rw [hb]
        simp only [bodyWeight, h]
        omega
  | expr e =>
    cases e with
    | Ref info =>
      cases info with
      | Native ni =>
        cases ni with
        | mk ref =>
          simp [walkStep, neededFuel, itemCost, sizeExpr, sizeInfo]
          omega
      | Defined di =>
        cases di with
        | mk defId generic_args =>
          have h1 := workCost_map_expr generic_args
          have h2 := sum_sizeExpr_le_sizeList generic_args
          simp only [walkStep, neededFuel, workCost_cons, workCost_append,
            itemCost, sizeExpr, sizeInfo]
          omega
    | Name tn =>
      cases tn with
      | mk path name generic_args =>
        have h1 := workCost_map_expr generic_args
        have h2 := sum_sizeExpr_le_sizeList generic_args
        simp only [walkStep, neededFuel, workCost_cons, workCost_append,
          itemCost, sizeExpr, sizeTsName]
        omega
    | Str ts =>
      simp [walkStep, neededFuel, itemCost, sizeExpr]
      omega
    | Tuple docs elements =>
      have h1 := workCost_map_expr elements
      have h2 := sum_sizeExpr_le_sizeList elements
      simp only [walkStep, neededFuel, workCost_cons, workCost_append,
        itemCost, sizeExpr]
      omega
    | Object docs fields =>
      have h1 := workCost_fields fields
      simp only [walkStep, neededFuel, workCost_cons, workCost_append,
        itemCost, sizeExpr]
      omega
    | Array docs item =>
      simp only [walkStep, neededFuel, workCost_cons, itemCost, sizeExpr]
      omega
    | Union docs members =>
      have h1 := workCost_map_expr members
      have h2 := sum_sizeExpr_le_sizeList members
      simp only [walkStep, neededFuel, workCost_cons, workCost_append,
        itemCost, sizeExpr]
      omega
    | Intersection docs members =>
      have h1 := workCost_map_expr members
      have h2 := sum_sizeExpr_le_sizeList members
      simp only [walkStep, neededFuel, workCost_cons, workCost_append,
        itemCost, sizeExpr]
      omega

theorem neededFuel_cons_pos (env : Env) (item : WorkItem)
    (rest : List WorkItem) (st : WalkState) :
    1 ≤ neededFuel env (item :: rest) st := by
  have := itemCost_pos item
  simp only [neededFuel, workCost_cons]
  omega

theorem walkWork_fuel_congr (env : Env) :
    ∀ fuel₁ fuel₂ work st,
      neededFuel env work st ≤ fuel₁ → neededFuel env work st ≤ fuel₂ →
      walkWork env fuel₁ work st = walkWork env fuel₂ work st := by
  intro fuel₁
  induction fuel₁ with
  | zero =>
    intro fuel₂ work st h1 h2
    cases work with
    | nil => cases fuel₂ <;> simp [walkWork]
    | cons item rest =>
      have := neededFuel_cons_pos env item rest st
      omega
  | succ f ih =>
    intro fuel₂ work st h1 h2
    cases work with
    | nil => cases fuel₂ <;> simp [walkWork]
    | cons item rest =>
      cases fuel₂ with
      | zero =>
        have := neededFuel_cons_pos env item rest st
        omega
      | succ f₂ =>
        simp only [walkWork]
        have hstep := walkStep_needed env item rest st
        exact ih f₂ _ _ (by omega) (by omega)

@[simp]
theorem pendingAppends_nil : pendingAppends [] = [] := rfl

@[simp]
theorem pendingAppends_cons_append (id : Nat) (l : List WorkItem) :
    pendingAppends (.append id :: l) = id :: pendingAppends l := rfl

@[simp]
theorem pendingAppends_cons_defn (id : Nat) (l : List WorkItem) :
    pendingAppends (.defn id :: l) = pendingAppends l := rfl

@[simp]
theorem pendingAppends_cons_expr (e : TypeExpr) (l : List WorkItem) :
    pendingAppends (.expr e :: l) = pendingAppends l := rfl

@[simp]
theorem pendingAppends_append (a b : List WorkItem) :
    pendingAppends (a ++ b) = pendingAppends a ++ pendingAppends b := by
  simp [pendingAppends]

@[simp]
theorem pendingAppends_map_expr (es : List TypeExpr) :
    pendingAppends (es.map WorkItem.expr) = [] := by
  induction es with
  | nil => rfl
  | cons x rest ih => simp [pendingAppends] at ih ⊢

@[simp]
theorem pendingAppends_map_field (fs : List ObjectField) :
    pendingAppends (fs.map fun f =>
      match f with
      | .mk _ _ _ type_ => WorkItem.expr type_) = [] := by
  induction fs with
  | nil => rfl
  | cons f rest ih =>
    cases f with
    | mk docs name optional type_ => simpa [pendingAppends] using ih

/-- The dedup invariant of the walk: discovered order entries and pending
append markers are mutually distinct, and all of them are recorded in the
visited set and are valid arena indices. -/
def WalkInv (env : Env) (work : List WorkItem) (st : WalkState) : Prop :=
  (st.order ++ pendingAppends work).Nodup ∧
  (∀ i, i ∈ st.order ++ pendingAppends work → i ∈ st.visited) ∧
  (∀ i, i ∈ st.order ++ pendingAppends work → i < env.length)

theorem walkStep_inv (env : Env) (item : WorkItem) (rest : List WorkItem)
    (st : WalkState) (h : WalkInv env (item :: rest) st) :
    WalkInv env (walkStep env item rest st).1 (walkStep env item rest st).2 := by
  obtain ⟨hnd, hvis, hlt⟩ := h
  cases item with
  | append id =>
    refine ⟨?_, ?_, ?_⟩
    · simpa [walkStep, List.append_assoc] using hnd
    · intro i hi
      apply hvis
      simpa [walkStep, List.append_assoc] using hi
    · intro i hi
      apply hlt
      simpa [walkStep, List.append_assoc] using hi
  | defn id =>
    by_cases hmem : id ∈ st.visited
    · simp only [walkStep, if_pos hmem]
      exact ⟨by simpa using hnd, by simpa using hvis, by simpa using hlt⟩
    · cases hl : env[id]? with
      | none =>
        simp only [walkStep, if_neg hmem, hl]
        exact ⟨by simpa using hnd, by simpa using hvis, by simpa using hlt⟩
      | some d =>
        simp only [walkStep, if_neg hmem, hl]
        have hidfresh : id ∉ st.order ++ pendingAppends rest := by
          intro hin
          exact hmem (hvis id (by simpa using hin))
        refine ⟨?_, ?_, ?_⟩
        · simp only [pendingAppends_cons_expr, pendingAppends_cons_append]
          rw [List.nodup_middle]
          exact List.nodup_cons.mpr ⟨hidfresh, by simpa using hnd⟩
        · intro i hi
          simp only [pendingAppends_cons_expr, pendingAppends_cons_append]
            at hi
          rcases List.mem_append.mp hi with ho | hp
          · exact List.mem_cons_of_mem _ (hvis i (by simp [ho]))
          · rcases List.mem_cons.mp hp with rfl | hp'
            · exact List.mem_cons_self _ _
            · exact List.mem_cons_of_mem _ (hvis i (by simp [hp']))
        · intro i hi
          simp only [pendingAppends_cons_expr, pendingAppends_cons_append]
            at hi
          rcases List.mem_append.mp hi with ho | hp
          · exact hlt i (by simp [ho])
          · rcases List.mem_cons.mp hp with rfl | hp'
            · exact getElem?_some_lt env i d hl
            · exact hlt i (by simp [hp'])
  | expr e =>
    have hs : pendingAppends (walkStep env (.expr e) rest st).1 =
        pendingAppends rest ∧ (walkStep env (.expr e) rest st).2 = st := by
      cases e with
      | Ref info =>
        cases info with
        | Native ni => cases ni with | mk ref => simp [walkStep]
        | Defined di => cases di with | mk a b => simp [walkStep]
      | Name tn => cases tn with | mk a b c => simp [walkStep]
      | Str ts => simp [walkStep]
      | Tuple d es => simp [walkStep]
      | Object d fs => simp [walkStep]
      | Array d it => simp [walkStep]
      | Union d es => simp [walkStep]
      | Intersection d es => simp [walkStep]
    refine ⟨?_, ?_, ?_⟩
    · rw [hs.1, hs.2]
      simpa using hnd
    · intro i hi
      rw [hs.1, hs.2] at hi
      rw [hs.2]
      exact hvis i (by simpa using hi)
    · intro i hi
      rw [hs.1, hs.2] at hi
      exact hlt i (by simpa using hi)

theorem walkWork_nodup (env : Env) :
    ∀ fuel work st, WalkInv env work st →
      (walkWork env fuel work st).order.Nodup ∧
      (∀ i ∈ (walkWork env fuel work st).order, i < env.length) := by
  intro fuel
  induction fuel with
  | zero =>
    intro work st h
    obtain ⟨hnd, _, hlt⟩ := h
    simp only [walkWork]
    exact ⟨hnd.of_append_left, fun i hi => hlt i (List.mem_append_left _ hi)⟩
  | succ f ih =>
    intro work st h
    cases work with
    | nil =>
      obtain ⟨hnd, _, hlt⟩ := h
      simp only [walkWork]
      exact ⟨hnd.of_append_left,
        fun i hi => hlt i (List.mem_append_left _ hi)⟩
    | cons item rest =>
      simp only [walkWork]
      exact ih _ _ (walkStep_inv env item rest st h)

theorem iter_refs_nodup (env : Env) (info : TypeInfo) :
    (iter_refs env info).Nodup := by
  refine (walkWork_nodup env _ _ _ ?_).1
  refine ⟨?_, ?_, ?_⟩ <;> simp [pendingAppends]

theorem iter_refs_valid (env : Env) (info : TypeInfo) :
    ∀ i ∈ iter_refs env info, i < env.length := by
  refine (walkWork_nodup env _ _ _ ?_).2
  refine ⟨?_, ?_, ?_⟩ <;> simp [pendingAppends]

theorem walkStep_order_extend (env : Env) (item : WorkItem)
    (rest : List WorkItem) (st : WalkState) :
    ∃ δ, (walkStep env item rest st).2.order = st.order ++ δ := by
  cases item with
  | append id => exact ⟨[id], by simp [walkStep]⟩
  | defn id =>
    by_cases hmem : id ∈ st.visited
    · exact ⟨[], by simp [walkStep, hmem]⟩
    · cases hl : env[id]? with
      | none => exact ⟨[], by simp [walkStep, hmem, hl]⟩
      | some d =>
        refine ⟨[], ?_⟩
        simp only [walkStep]
        rw [if_neg hmem]
        simp [hl]
  | expr e =>
    refine ⟨[], ?_⟩
    cases e with
    | Ref info =>
      cases info with
      | Native ni => cases ni with | mk ref => simp [walkStep]
      | Defined di => cases di with | mk a b => simp [walkStep]
    | Name tn => cases tn with | mk a b c => simp [walkStep]
    | Str ts => simp [walkStep]
    | Tuple d es => simp [walkStep]
    | Object d fs => simp [walkStep]
    | Array d it => simp [walkStep]
    | Union d es => simp [walkStep]
    | Intersection d es => simp [walkStep]

theorem walkWork_order_extend (env : Env) :
    ∀ fuel work st, ∃ δ, (walkWork env fuel work st).order = st.order ++ δ := by
  intro fuel
  induction fuel with
  | zero => intro work st; exact ⟨[], by simp [walkWork]⟩
  | succ f ih =>
    intro work st
    cases work with
    | nil => exact ⟨[], by simp [walkWork]⟩
    | cons item rest =>
      simp only [walkWork]
      obtain ⟨δ₁, h1⟩ := walkStep_order_extend env item rest st
      obtain ⟨δ₂, h2⟩ := ih (walkStep env item rest st).1
        (walkStep env item rest st).2
      exact ⟨δ₁ ++ δ₂, by rw [h2, h1, List.append_assoc]⟩

theorem walkStep_keeps_rest (env : Env) (item : WorkItem)
    (rest : List WorkItem) (st : WalkState) (x : WorkItem) (hx : x ∈ rest) :
    x ∈ (walkStep env item rest st).1 := by
  cases item with
  | append id => simpa [walkStep] using hx
  | defn id =>
    by_cases hmem : id ∈ st.visited
    · simpa [walkStep, hmem] using hx
    · cases hl : env[id]? with
      | none => simpa [walkStep, hmem, hl] using hx
      | some d =>
        simp only [walkStep]
        rw [if_neg hmem]
        simp only [hl]
        exact List.mem_cons_of_mem _ (List.mem_cons_of_mem _ hx)
  | expr e =>
    cases e with
    | Ref info =>
      cases info with
      | Native ni =>
        cases ni with
        | mk ref => simp [walkStep]; exact Or.inr hx
      | Defined di =>
        cases di with
        | mk a b =>
          simp [walkStep]
          exact Or.inr (Or.inr hx)
    | Name tn =>
      cases tn with
      | mk a b c => simp [walkStep]; exact Or.inr hx
    | Str ts => simpa [walkStep] using hx
    | Tuple d es => simp [walkStep]; exact Or.inr hx
    | Object d fs => simp [walkStep]; exact Or.inr hx
    | Array d it => simp [walkStep]; exact Or.inr hx
    | Union d es => simp [walkStep]; exact Or.inr hx
    | Intersection d es => simp [walkStep]; exact Or.inr hx

theorem walkWork_append_mem (env : Env) :
    ∀ fuel work st id, neededFuel env work st ≤ fuel →
      WorkItem.append id ∈ work →
      id ∈ (walkWork env fuel work st).order := by
  intro fuel
  induction fuel with
  | zero =>
    intro work st id hfuel hmem
    cases work with
    | nil => simp at hmem
    | cons item rest =>
      have := neededFuel_cons_pos env item rest st
      omega
  | succ f ih =>
    intro work st id hfuel hmem
    cases work with
    | nil => simp at hmem
    | cons item rest =>
      simp only [walkWork]
      have hstep := walkStep_needed env item rest st
      rcases List.mem_cons.mp hmem with heq | hrest
      · subst heq
        have h2 : (walkStep env (.append id) rest st).2.order =
            st.order ++ [id] := by simp [walkStep]
        obtain ⟨δ, hδ⟩ := walkWork_order_extend env f
          (walkStep env (.append id) rest st).1
          (walkStep env (.append id) rest st).2
        rw [hδ, h2]
        simp
      · exact ih _ _ id (by omega)
          (walkStep_keeps_rest env item rest st _ hrest)

/-! ## Counting and whole-run lemmas -/

@[simp]
theorem numBumps_wsteps (l : List WStep) : numBumps (wsteps l) = 0 := by
  induction l with
  | nil => rfl
  | cons s rest ih =>
    cases s with
    | write w => simpa using ih
    | halt msg =>
      simp only [wsteps_cons, toEmit_halt]
      simpa [numBumps, List.countP_cons] using ih

theorem numBumps_defSteps (look : Nat → Option RefView) (ns : String)
    (d : TypeDefinition) : numBumps (defSteps look ns d) = 1 := by
  simp [defSteps]

theorem numBumps_defListSteps (env : Env) (ns : String) (ids : List Nat)
    (hv : ∀ i ∈ ids, i < env.length) :
    numBumps (defListSteps env ns ids) = ids.length := by
  induction ids with
  | nil => rfl
  | cons id rest ih =>
    have hid : id < env.length := hv id (List.mem_cons_self _ _)
    have hrest : ∀ i ∈ rest, i < env.length :=
      fun i hi => hv i (List.mem_cons_of_mem _ hi)
    cases hl : env[id]? with
    | none =>
      exfalso
      rw [List.getElem?_eq_none_iff] at hl
      omega
    | some d =>
      simp only [defListSteps, hl, numBumps_append, numBumps_defSteps,
        ih hrest, List.length_cons]
      omega

theorem numBumps_fileSteps (env : Env) (options : DefinitionFileOptions)
    (info : TypeInfo) :
    numBumps (fileSteps env options info) = (iter_refs env info).length := by
  cases h : options.header with
  | none =>
    simp [fileSteps, h, numBumps_defListSteps env _ _ (iter_refs_valid env info)]
  | some hd =>
    simp [fileSteps, h, numBumps_defListSteps env _ _ (iter_refs_valid env info)]

theorem write_definition_file_ok (env : Env)
    (options : DefinitionFileOptions) (info : TypeInfo) (sk : Sink)
    (hh : haltFree (fileSteps env options info) = true)
    (hf : noFailIn sk 0 (numWrites (fileSteps env options info))) :
    write_definition_file env options info sk initState =
      .ok ({ type_definitions := (iter_refs env info).length },
        { buf := renderFile env options info,
          nWrites := numWrites (fileSteps env options info),
          type_definitions := (iter_refs env info).length }) := by
  rw [write_definition_file_spec]
  simp only [EmitM.bind]
  rw [runSteps_ok _ sk initState hh (by simpa [initState] using hf)]
  simp [EmitM.getStats, initState, renderFile, numBumps_fileSteps]

theorem write_definition_file_fail (env : Env)
    (options : DefinitionFileOptions) (info : TypeInfo) (sk : Sink)
    (k : Nat) (hh : haltFree (fileSteps env options info) = true)
    (hfail : sk.failAt = some k)
    (hk : k < numWrites (fileSteps env options info)) :
    ∃ t, write_definition_file env options info sk initState =
      .error (.ioError sk.err,
        { buf := concatStrs
            ((stepsWrites (fileSteps env options info)).take k),
          nWrites := k,
          type_definitions := t }) := by
  rw [write_definition_file_spec]
  obtain ⟨t, ht⟩ := runSteps_fail (fileSteps env options info) sk initState k
    hh (by simpa [initState] using hfail) hk
  refine ⟨t, ?_⟩
  simp only [EmitM.bind]
  rw [ht]
  simp [initState]

/-! ## Pure rendering formulas -/

@[simp]
theorem str_empty_append (s : String) : "" ++ s = s := by
  simp

@[simp]
theorem str_append_empty (s : String) : s ++ "" = s := by
  simp

theorem cw_pathPartsSteps (path : List Ident) :
    concatWrites (wsteps (pathPartsSteps path)) = dotsAfter path := by
  induction path with
  | nil => rfl
  | cons p ps ih =>
    simp only [pathPartsSteps, wsteps_cons, toEmit_write,
      concatWrites_cons_write, ih, dotsAfter, List.map_cons, concatStrs_cons]
    simp only [String.append_assoc]

theorem cw_identSteps (i : Ident) :
    concatWrites (wsteps (identSteps i)) = i.name := by
  simp [identSteps]

theorem cw_sepTailSteps (look : Nat → Option RefView) (ns sep : String) :
    ∀ es : List TypeExpr,
      concatWrites (wsteps (sepTailSteps look ns sep es)) =
        concatStrs (es.map fun e =>
          sep ++ concatWrites (wsteps (exprSteps look ns e))) := by
  intro es
  induction es with
  | nil => rfl
  | cons e rest ih =>
    simp only [sepTailSteps, wsteps_cons, wsteps_append, toEmit_write,
      concatWrites_cons_write, concatWrites_append, ih, List.map_cons,
      concatStrs_cons, String.append_assoc]

theorem cw_sepListSteps (look : Nat → Option RefView) (ns sep : String) :
    ∀ es : List TypeExpr,
      concatWrites (wsteps (sepListSteps look ns sep es)) =
        joinSep sep (es.map fun e =>
          concatWrites (wsteps (exprSteps look ns e))) := by
  intro es
  cases es with
  | nil => rfl
  | cons e rest =>
    simp only [sepListSteps, wsteps_append, concatWrites_append,
      cw_sepTailSteps, joinSep, List.map_cons, List.map_map]
    rfl

theorem cw_fieldsSteps (look : Nat → Option RefView) (ns : String) :
    ∀ fs : List ObjectField,
      concatWrites (wsteps (fieldsSteps look ns fs)) =
        concatStrs (fs.map fun f =>
          match f with
          | .mk docs name optional type_ =>
              renderDocs docs ++ renderTypeString name ++
                (if optional then "?" else "") ++ ":" ++
                concatWrites (wsteps (exprSteps look ns type_)) ++ ";") := by
  intro fs
  induction fs with
  | nil => rfl
  | cons f rest ih =>
    cases f with
    | mk docs name optional type_ =>
      cases optional with
      | false =>
        simp only [fieldsSteps, wsteps_append, wsteps_cons, toEmit_write,
          concatWrites_append, concatWrites_cons_write, ih, List.map_cons,
          concatStrs_cons, renderDocs, renderTypeString,
          if_neg Bool.false_ne_true, wsteps_nil, concatWrites_nil]
        simp only [if_true, wsteps_cons, wsteps_nil, wsteps_append,
      toEmit_write, concatWrites_cons_write, concatWrites_nil,
      concatWrites_append, cw_sepListSteps, cw_pathPartsSteps,
      cw_identSteps, String.append_assoc, str_empty_append,
      str_append_empty]
      | true =>
        simp only [fieldsSteps, wsteps_append, wsteps_cons, toEmit_write,
          concatWrites_append, concatWrites_cons_write, ih, List.map_cons,
          concatStrs_cons, renderDocs, renderTypeString, if_pos rfl]
        simp only [if_true, wsteps_cons, wsteps_nil, toEmit_write,
          concatWrites_cons_write, concatWrites_nil, String.append_assoc,
          str_empty_append, str_append_empty]

theorem cw_typeNameSteps (look : Nat → Option RefView) (ns : String)
    (path : List Ident) (name : Ident) (generic_args : List TypeExpr) :
    concatWrites (wsteps (typeNameSteps look ns
        (.mk path name generic_args))) =
      dotsAfter path ++ name.name ++
        (if generic_args.isEmpty then ""
         else "<" ++ joinSep ","
           (generic_args.map fun e =>
             concatWrites (wsteps (exprSteps look ns e))) ++ ">") := by
  cases hga : generic_args.isEmpty with
  | false =>
    simp only [typeNameSteps, hga, if_neg Bool.false_ne_true, wsteps_append,
      concatWrites_append, cw_pathPartsSteps, cw_identSteps, wsteps_cons,
      toEmit_write, concatWrites_cons_write, cw_sepListSteps, wsteps_nil,
      concatWrites_nil]
    simp only [if_true, wsteps_cons, wsteps_nil, wsteps_append,
      toEmit_write, concatWrites_cons_write, concatWrites_nil,
      concatWrites_append, cw_sepListSteps, cw_pathPartsSteps,
      cw_identSteps, String.append_assoc, str_empty_append,
      str_append_empty]
  | true =>
    simp only [typeNameSteps, hga, if_pos rfl, wsteps_append,
      concatWrites_append, cw_pathPartsSteps, cw_identSteps,
      List.append_nil]
    simp only [if_true, wsteps_cons, wsteps_nil, wsteps_append,
      toEmit_write, concatWrites_cons_write, concatWrites_nil,
      concatWrites_append, cw_sepListSteps, cw_pathPartsSteps,
      cw_identSteps, String.append_assoc, str_empty_append,
      str_append_empty]

theorem cw_refDefinedSteps (look : Nat → Option RefView) (ns : String)
    (defId : Nat) (generic_args : List TypeExpr) (v : RefView)
    (hl : look defId = some v)
    (harity : generic_args.length = v.nVars) :
    concatWrites (wsteps (exprSteps look ns
        (.Ref (.Defined (.mk defId generic_args))))) =
      ns ++ "." ++ dotsAfter v.path ++ v.name.name ++
        (if generic_args.isEmpty then ""
         else "<" ++ joinSep ","
           (generic_args.map fun e =>
             concatWrites (wsteps (exprSteps look ns e))) ++ ">") := by
  cases hga : generic_args.isEmpty with
  | false =>
    simp only [exprSteps, hl, harity, if_pos rfl, hga,
      if_neg Bool.false_ne_true, wsteps_cons, wsteps_append, toEmit_write,
      concatWrites_cons_write, concatWrites_append, cw_pathPartsSteps,
      cw_identSteps, cw_sepListSteps, wsteps_nil, concatWrites_nil]
    simp only [if_true, wsteps_cons, wsteps_nil, wsteps_append,
      toEmit_write, concatWrites_cons_write, concatWrites_nil,
      concatWrites_append, cw_sepListSteps, cw_pathPartsSteps,
      cw_identSteps, String.append_assoc, str_empty_append,
      str_append_empty]
  | true =>
    simp only [exprSteps, hl, harity, if_pos rfl, hga, wsteps_cons,
      wsteps_append, toEmit_write, concatWrites_cons_write,
      concatWrites_append, cw_pathPartsSteps, cw_identSteps,
      List.append_nil]
    simp only [if_true, wsteps_cons, wsteps_nil, wsteps_append,
      toEmit_write, concatWrites_cons_write, concatWrites_nil,
      concatWrites_append, cw_sepListSteps, cw_pathPartsSteps,
      cw_identSteps, String.append_assoc, str_empty_append,
      str_append_empty]

/-! ## Remaining helpers for the claims -/

theorem haltFree_wsteps_write_only (l : List WStep)
    (h : ∀ s ∈ l, ∃ w, s = WStep.write w) :
    haltFree (wsteps l) = true := by
  induction l with
  | nil => rfl
  | cons s rest ih =>
    obtain ⟨w, rfl⟩ := h s (List.mem_cons_self _ _)
    simp only [wsteps_cons, toEmit_write, haltFree_cons_write]
    exact ih fun s hs => h s (List.mem_cons_of_mem _ hs)

theorem haltFree_docsSteps (docs : Option Docs) :
    haltFree (wsteps (docsSteps docs)) = true := by
  apply haltFree_wsteps_write_only
  intro s hs
  cases docs with
  | none => simp [docsSteps] at hs
  | some d =>
    simp only [docsSteps, docsValSteps, List.mem_cons, List.mem_append,
      docLinesSteps, List.mem_map, List.mem_singleton,
      List.not_mem_nil, or_false] at hs
    rcases hs with rfl | rfl | ⟨l, _, rfl⟩ | rfl <;> exact ⟨_, rfl⟩

theorem haltFree_typeStringSteps (ts : TypeString) :
    haltFree (wsteps (typeStringSteps ts)) = true := by
  simp [typeStringSteps, haltFree_docsSteps ts.docs]

theorem walkWork_cons_big (env : Env) (fuel : Nat) (item : WorkItem)
    (rest : List WorkItem) (st : WalkState) (h : 1 ≤ fuel) :
    walkWork env fuel (item :: rest) st =
      walkWork env (fuel - 1) (walkStep env item rest st).1
        (walkStep env item rest st).2 := by
  cases fuel with
  | zero => omega
  | succ f => simp [walkWork]

theorem renderFile_formula (env : Env) (options : DefinitionFileOptions)
    (info : TypeInfo) :
    renderFile env options info =
      (match options.header with
       | some h => h ++ "\n"
       | none => "") ++
      ("export default " ++ options.root_namespace ++ ";\n") ++
      ("export namespace " ++ options.root_namespace ++ "\x7b\n") ++
      concatWrites (defListSteps env options.root_namespace
        (iter_refs env info)) ++
      "\x7d\n" := by
  cases hh : options.header with
  | none =>
    simp only [renderFile, fileSteps, hh, List.nil_append,
      concatWrites_cons_write, concatWrites_append]
    simp [String.append_assoc]
  | some h =>
    simp only [renderFile, fileSteps, hh, List.cons_append, List.nil_append,
      concatWrites_cons_write, concatWrites_append]
    simp [String.append_assoc]

/-! ## The claims -/

/-- Claim C1: for every root type and options, the `Stats` record
returned by a successful `write_definition_file` run has
`type_definitions` equal to the number of distinct named definitions in
the deduplicated transitive-reference closure of the root (the closure
list is duplicate-free, so every definition is rendered and counted by
`emit_def`'s increment exactly once, no matter how often it is
referenced), and the emitted text is exactly one rendering pass over that
closure. -/
theorem claim_C1 (env : Env) (options : DefinitionFileOptions)
    (info : TypeInfo)
    (hh : haltFree (fileSteps env options info) = true) :
    write_definition_file env options info noFailSink initState =
      .ok ({ type_definitions := (iter_refs env info).length },
        { buf := renderFile env options info,
          nWrites := numWrites (fileSteps env options info),
          type_definitions := (iter_refs env info).length }) ∧
    (iter_refs env info).Nodup :=
  ⟨write_definition_file_ok env options info noFailSink hh
    (noFailIn_noFailSink 0 _),
   iter_refs_nodup env info⟩

/-- Witness for C1 at a concrete mutually-recursive arena: the run
succeeds, reports two type definitions (the size of the closure), and the
closure is duplicate-free. -/
theorem claim_C1_witness :
    haltFree (fileSteps exEnvCyc exPlainOptions
      (.Defined (.mk 0 []))) = true ∧
    (write_definition_file exEnvCyc exPlainOptions (.Defined (.mk 0 []))
        noFailSink initState =
      .ok ({ type_definitions :=
              (iter_refs exEnvCyc (.Defined (.mk 0 []))).length },
        { buf := renderFile exEnvCyc exPlainOptions (.Defined (.mk 0 [])),
          nWrites := numWrites (fileSteps exEnvCyc exPlainOptions
            (.Defined (.mk 0 []))),
          type_definitions :=
            (iter_refs exEnvCyc (.Defined (.mk 0 []))).length }) ∧
      (iter_refs exEnvCyc (.Defined (.mk 0 []))).Nodup) :=
  ⟨by decide,
   claim_C1 exEnvCyc exPlainOptions (.Defined (.mk 0 [])) (by decide)⟩

/-- Claim C2: on cyclic and mutually-recursive definition graphs the
closure walk reaches its result within the canonical fuel (any extra fuel
yields the same traversal, so the walk never loops), the closure contains
each distinct definition exactly once, and the rendering of expressions
is independent of the bodies of the definitions they reference (two
arenas with the same paths, names and generic-parameter counts render
identically): references are rendered as qualified names, never inlined
bodies. -/
theorem claim_C2 :
    (∀ (env : Env) (info : TypeInfo) (extra : Nat),
      walkWork env (walkFuel env info + extra) [.expr (.Ref info)]
          { visited := [], order := [] } =
        walkWork env (walkFuel env info) [.expr (.Ref info)]
          { visited := [], order := [] }) ∧
    (∀ (env : Env) (info : TypeInfo), (iter_refs env info).Nodup) ∧
    (∀ (env₁ env₂ : Env) (ns : String), viewOf env₁ = viewOf env₂ →
      ∀ e : TypeExpr, emitExpr env₁ ns e = emitExpr env₂ ns e) := by
  refine ⟨?_, ?_, ?_⟩
  · intro env info extra
    exact walkWork_fuel_congr env _ _ _ _ (by simp [walkFuel])
      (by simp [walkFuel])
  · exact iter_refs_nodup
  · intro env₁ env₂ ns hv e
    rw [emitExpr_spec env₁ ns e, emitExpr_spec env₂ ns e, hv]

/-- Witness for C2: the two concrete arenas `exEnvCyc` (cyclic bodies)
and `exEnvCyc2` (rewritten bodies) expose the same view, so a reference
into them renders identically. -/
theorem claim_C2_witness :
    viewOf exEnvCyc = viewOf exEnvCyc2 ∧
    emitExpr exEnvCyc "types" (.Ref (.Defined (.mk 0 []))) =
      emitExpr exEnvCyc2 "types" (.Ref (.Defined (.mk 0 []))) := by
  have hv : viewOf exEnvCyc = viewOf exEnvCyc2 := by
    funext i
    match i with
    | 0 => rfl
    | 1 => rfl
    | n + 2 => rfl
  exact ⟨hv, claim_C2.2.2 exEnvCyc exEnvCyc2 "types" hv
    (.Ref (.Defined (.mk 0 [])))⟩

/-- Claim C3: a reference to a defined entry whose supplied
generic-argument count differs from the declared generic-parameter count
aborts emission with the fail-fast assertion (`panicked`, never a
recoverable `ioError` value); when the counts agree the assertion is
passed and emission proceeds to a successful rendering, e.g.
`Path.Name<Arg1,Arg2>` for a two-parameter definition applied to exactly
two arguments. -/
theorem claim_C3 :
    (∀ (env : Env) (ns : String) (id : Nat) (args : List TypeExpr)
       (d : TypeDefinition) (sk : Sink) (st : EmitState),
      env[id]? = some d → args.length ≠ d.generic_vars.length →
      emitExpr env ns (.Ref (.Defined (.mk id args))) sk st =
        .error (.panicked arityMsg, st)) ∧
    (∀ (env : Env) (ns : String) (id : Nat) (args : List TypeExpr)
       (d : TypeDefinition) (st : EmitState),
      env[id]? = some d → args.length = d.generic_vars.length →
      haltFree (wsteps (exprSteps (viewOf env) ns
        (.Ref (.Defined (.mk id args))))) = true →
      ∃ st', emitExpr env ns (.Ref (.Defined (.mk id args)))
        noFailSink st = .ok ((), st')) ∧
    (emitExpr exEnvGen "Path" (.Ref (.Defined (.mk 0 [exArg1, exArg2])))
        noFailSink initState =
      .ok ((), { buf := "Path.Name<Arg1,Arg2>", nWrites := 7,
                 type_definitions := 0 })) := by
  refine ⟨?_, ?_, ?_⟩
  · intro env ns id args d sk st hl hne
    simp only [emitExpr, hl, EmitM.bind_def]
    rw [if_neg hne, EmitM.panicM_bind]
    rfl
  · intro env ns id args d st hl heq hh
    rw [emitExpr_spec]
    rw [runSteps_ok _ noFailSink st hh (noFailIn_noFailSink _ _)]
    exact ⟨_, rfl⟩
  · rfl

/-- Witness for C3 at the concrete two-parameter definition `Name`:
supplying one argument triggers the fail-fast assertion abort. -/
theorem claim_C3_witness :
    exEnvGen[0]? = some exGenDef ∧
    [exArg1].length ≠ exGenDef.generic_vars.length ∧
    emitExpr exEnvGen "Path" (.Ref (.Defined (.mk 0 [exArg1])))
        noFailSink initState =
      .error (.panicked arityMsg, initState) :=
  ⟨rfl, by decide,
   claim_C3.1 exEnvGen "Path" 0 [exArg1] exGenDef noFailSink initState rfl
     (by decide)⟩

/-- Claim C4: a reference to a defined entry always renders as the
configured root namespace, a dot, every namespace-path segment of the
definition each followed by a dot, then the name (and the generic
arguments in angle brackets when present) — never a bare or relatively
qualified name; in particular two definitions with the same local name in
different namespace paths render distinguishably. -/
theorem claim_C4 :
    (∀ (env : Env) (ns : String) (id : Nat) (args : List TypeExpr)
       (d : TypeDefinition) (st : EmitState),
      env[id]? = some d → args.length = d.generic_vars.length →
      haltFree (wsteps (exprSteps (viewOf env) ns
        (.Ref (.Defined (.mk id args))))) = true →
      emitExpr env ns (.Ref (.Defined (.mk id args))) noFailSink st =
        .ok ((),
          { buf := st.buf ++ (ns ++ "." ++ dotsAfter d.path ++
              d.name.name ++
              (if args.isEmpty then ""
               else "<" ++ joinSep ","
                 (args.map fun e => renderExpr env ns e) ++ ">"))
            nWrites := st.nWrites + numWrites (wsteps (exprSteps
              (viewOf env) ns (.Ref (.Defined (.mk id args)))))
            type_definitions := st.type_definitions })) ∧
    (renderExpr exEnvTwoFoo "types" (.Ref (.Defined (.mk 0 []))) =
        "types.Foo" ∧
     renderExpr exEnvTwoFoo "types" (.Ref (.Defined (.mk 1 []))) =
        "types.bar.Foo" ∧
     ("types.Foo" : String) ≠ "types.bar.Foo") := by
  constructor
  · intro env ns id args d st hl heq hh
    rw [emitExpr_spec]
    rw [runSteps_ok _ noFailSink st hh (noFailIn_noFailSink _ _)]
    have hv : viewOf env id = some ⟨d.path, d.name, d.generic_vars.length⟩ := by
      simp [viewOf, hl]
    rw [cw_refDefinedSteps (viewOf env) ns id args
      ⟨d.path, d.name, d.generic_vars.length⟩ hv heq]
    simp [renderExpr, String.append_assoc]
  · exact ⟨rfl, rfl, by decide⟩

/-- Witness for C4 at the two same-named definitions: the reference to
the namespaced `Foo` renders with its distinguishing full path. -/
theorem claim_C4_witness :
    exEnvTwoFoo[1]? = some
      ⟨none, [⟨"bar"⟩], ⟨"Foo"⟩, [], exStr⟩ ∧
    haltFree (wsteps (exprSteps (viewOf exEnvTwoFoo) "types"
      (.Ref (.Defined (.mk 1 []))))) = true ∧
    emitExpr exEnvTwoFoo "types" (.Ref (.Defined (.mk 1 [])))
        noFailSink initState =
      .ok ((),
        { buf := "" ++ ("types" ++ "." ++
            dotsAfter [{ name := "bar" }] ++ "Foo" ++
            (if ([] : List TypeExpr).isEmpty then ""
             else "<" ++ joinSep ","
               (([] : List TypeExpr).map fun e =>
                 renderExpr exEnvTwoFoo "types" e) ++ ">"))
          nWrites := 0 + numWrites (wsteps (exprSteps (viewOf exEnvTwoFoo)
            "types" (.Ref (.Defined (.mk 1 [])))))
          type_definitions := 0 }) :=
  ⟨rfl, by decide,
   claim_C4.1 exEnvTwoFoo "types" 1 []
     ⟨none, [⟨"bar"⟩], ⟨"Foo"⟩, [], exStr⟩ initState rfl rfl (by decide)⟩

/-- Claim C7: an empty union renders exactly as `never` and an empty
intersection exactly as `any` (no parenthesized empty list), while
non-empty unions and intersections render as a parenthesized list of
their members joined by `|` resp. `&` in construction order. -/
theorem claim_C7 :
    (∀ (env : Env) (ns : String) (st : EmitState),
      emitExpr env ns (.Union none []) noFailSink st =
        .ok ((),
          { buf := st.buf ++ "never"
            nWrites := st.nWrites + 1
            type_definitions := st.type_definitions })) ∧
    (∀ (env : Env) (ns : String) (st : EmitState),
      emitExpr env ns (.Intersection none []) noFailSink st =
        .ok ((),
          { buf := st.buf ++ "any"
            nWrites := st.nWrites + 1
            type_definitions := st.type_definitions })) ∧
    (∀ (env : Env) (ns : String) (st : EmitState) (e : TypeExpr)
       (es : List TypeExpr),
      haltFree (wsteps (exprSteps (viewOf env) ns (.Union none (e :: es))))
          = true →
      emitExpr env ns (.Union none (e :: es)) noFailSink st =
        .ok ((),
          { buf := st.buf ++ ("(" ++ joinSep "|"
              ((e :: es).map fun x => renderExpr env ns x) ++ ")")
            nWrites := st.nWrites + numWrites (wsteps (exprSteps
              (viewOf env) ns (.Union none (e :: es))))
            type_definitions := st.type_definitions })) ∧
    (∀ (env : Env) (ns : String) (st : EmitState) (e : TypeExpr)
       (es : List TypeExpr),
      haltFree (wsteps (exprSteps (viewOf env) ns
          (.Intersection none (e :: es)))) = true →
      emitExpr env ns (.Intersection none (e :: es)) noFailSink st =
        .ok ((),
          { buf := st.buf ++ ("(" ++ joinSep "&"
              ((e :: es).map fun x => renderExpr env ns x) ++ ")")
            nWrites := st.nWrites + numWrites (wsteps (exprSteps
              (viewOf env) ns (.Intersection none (e :: es))))
            type_definitions := st.type_definitions })) := by
  refine ⟨?_, ?_, ?_, ?_⟩
  · intro env ns st
    rw [emitExpr_spec]
    rw [runSteps_ok _ noFailSink st (by rfl) (noFailIn_noFailSink _ _)]
    rfl
  · intro env ns st
    rw [emitExpr_spec]
    rw [runSteps_ok _ noFailSink st (by rfl) (noFailIn_noFailSink _ _)]
    rfl
  · intro env ns st e es hh
    rw [emitExpr_spec]
    rw [runSteps_ok _ noFailSink st hh (noFailIn_noFailSink _ _)]
    simp only [exprSteps, docsSteps, List.nil_append, List.isEmpty_cons,
      if_neg Bool.false_ne_true, wsteps_cons, wsteps_append, toEmit_write,
      concatWrites_cons_write, concatWrites_append, cw_sepListSteps,
      wsteps_nil, concatWrites_nil, renderExpr]
    simp [String.append_assoc]
  · intro env ns st e es hh
    rw [emitExpr_spec]
    rw [runSteps_ok _ noFailSink st hh (noFailIn_noFailSink _ _)]
    simp only [exprSteps, docsSteps, List.nil_append, List.isEmpty_cons,
      if_neg Bool.false_ne_true, wsteps_cons, wsteps_append, toEmit_write,
      concatWrites_cons_write, concatWrites_append, cw_sepListSteps,
      wsteps_nil, concatWrites_nil, renderExpr]
    simp [String.append_assoc]

/-- Witness for C7: a concrete two-member union renders parenthesized and
pipe-joined. -/
theorem claim_C7_witness :
    haltFree (wsteps (exprSteps (viewOf ([] : Env)) "types"
        (.Union none [exArg1, exArg2]))) = true ∧
    emitExpr ([] : Env) "types" (.Union none [exArg1, exArg2])
        noFailSink initState =
      .ok ((),
        { buf := "" ++ ("(" ++ joinSep "|"
            ([exArg1, exArg2].map fun x => renderExpr [] "types" x) ++ ")")
          nWrites := 0 + numWrites (wsteps (exprSteps (viewOf ([] : Env))
            "types" (.Union none [exArg1, exArg2])))
          type_definitions := 0 }) :=
  ⟨by decide,
   claim_C7.2.2.1 [] "types" initState exArg1 [exArg2] (by decide)⟩

/-- Claim C8: an object type renders as `\x7b`, then for each field in
construction order (never reordered): its documentation (if any), its
rendered field-name string literal, a `?` suffix exactly when the field
is optional, `:`, the rendered field type, and a terminating `;`,
followed by `\x7d`. -/
theorem claim_C8 (env : Env) (ns : String) (docs : Option Docs)
    (fs : List ObjectField) (st : EmitState)
    (hh : haltFree (wsteps (fieldsSteps (viewOf env) ns fs)) = true) :
    emitExpr env ns (.Object docs fs) noFailSink st =
      .ok ((),
        { buf := st.buf ++ (renderDocs docs ++ "\x7b" ++
            concatStrs (fs.map fun f =>
              match f with
              | .mk fdocs fname foptional ftype =>
                  renderDocs fdocs ++ renderTypeString fname ++
                    (if foptional then "?" else "") ++ ":" ++
                    renderExpr env ns ftype ++ ";") ++ "\x7d")
          nWrites := st.nWrites + numWrites (wsteps (exprSteps (viewOf env)
            ns (.Object docs fs)))
          type_definitions := st.type_definitions }) := by
  have hhall : haltFree (wsteps (exprSteps (viewOf env) ns
      (.Object docs fs))) = true := by
    simp only [exprSteps, wsteps_append, wsteps_cons, toEmit_write,
      haltFree_append, haltFree_cons_write, haltFree_nil,
      haltFree_docsSteps, Bool.true_and, Bool.and_true]
    simpa using hh
  rw [emitExpr_spec]
  rw [runSteps_ok _ noFailSink st hhall (noFailIn_noFailSink _ _)]
  simp only [exprSteps, wsteps_append, wsteps_cons, toEmit_write,
    concatWrites_append, concatWrites_cons_write, wsteps_nil,
    concatWrites_nil, cw_fieldsSteps, renderDocs, renderExpr]
  simp [String.append_assoc]

/-- Witness for C8 at a concrete two-field object (one optional field):
fields render in construction order with `?` only on the optional one. -/
theorem claim_C8_witness :
    haltFree (wsteps (fieldsSteps (viewOf ([] : Env)) "types"
      [ .mk none ⟨none, "a"⟩ false exArg1
      , .mk none ⟨none, "b"⟩ true exArg2 ])) = true ∧
    emitExpr ([] : Env) "types" (.Object none
        [ .mk none ⟨none, "a"⟩ false exArg1
        , .mk none ⟨none, "b"⟩ true exArg2 ]) noFailSink initState =
      .ok ((),
        { buf := "" ++ (renderDocs none ++ "\x7b" ++
            concatStrs ([ ObjectField.mk none ⟨none, "a"⟩ false exArg1
              , ObjectField.mk none ⟨none, "b"⟩ true exArg2 ].map fun f =>
              match f with
              | .mk fdocs fname foptional ftype =>
                  renderDocs fdocs ++ renderTypeString fname ++
                    (if foptional then "?" else "") ++ ":" ++
                    renderExpr [] "types" ftype ++ ";") ++ "\x7d")
          nWrites := 0 + numWrites (wsteps (exprSteps (viewOf ([] : Env))
            "types" (.Object none
              [ .mk none ⟨none, "a"⟩ false exArg1
              , .mk none ⟨none, "b"⟩ true exArg2 ])))
          type_definitions := 0 }) :=
  ⟨by decide,
   claim_C8 [] "types" none
     [ .mk none ⟨none, "a"⟩ false exArg1
     , .mk none ⟨none, "b"⟩ true exArg2 ] initState (by decide)⟩

/-- Claim C10: a direct `Name` reference renders only its own path
segments (each followed by a dot), its identifier, and its comma-joined
generic arguments in angle brackets only when non-empty; the configured
root namespace is never prepended, so a `Name` with empty path and no
generics renders as the bare identifier. -/
theorem claim_C10 :
    (∀ (env : Env) (ns : String) (path : List Ident) (name : Ident)
       (args : List TypeExpr) (st : EmitState),
      haltFree (wsteps (typeNameSteps (viewOf env) ns
        (.mk path name args))) = true →
      emitExpr env ns (.Name (.mk path name args)) noFailSink st =
        .ok ((),
          { buf := st.buf ++ (dotsAfter path ++ name.name ++
              (if args.isEmpty then ""
               else "<" ++ joinSep ","
                 (args.map fun e => renderExpr env ns e) ++ ">"))
            nWrites := st.nWrites + numWrites (wsteps (typeNameSteps
              (viewOf env) ns (.mk path name args)))
            type_definitions := st.type_definitions })) ∧
    (∀ (env : Env) (ns : String) (name : Ident) (st : EmitState),
      emitExpr env ns (.Name (.mk [] name [])) noFailSink st =
        .ok ((),
          { buf := st.buf ++ name.name
            nWrites := st.nWrites + 1
            type_definitions := st.type_definitions })) := by
  constructor
  · intro env ns path name args st hh
    rw [emitExpr_spec]
    have hsame : exprSteps (viewOf env) ns (.Name (.mk path name args)) =
        typeNameSteps (viewOf env) ns (.mk path name args) := by
      simp [exprSteps]
    rw [hsame]
    rw [runSteps_ok _ noFailSink st hh (noFailIn_noFailSink _ _)]
    rw [cw_typeNameSteps]
    simp [renderExpr, String.append_assoc]
  · intro env ns name st
    rw [emitExpr_spec]
    have hsame : exprSteps (viewOf env) ns (.Name (.mk [] name [])) =
        [WStep.write name.name] := by
      simp [exprSteps, typeNameSteps, pathPartsSteps, identSteps]
    rw [hsame]
    rw [runSteps_ok _ noFailSink st (by rfl) (noFailIn_noFailSink _ _)]
    simp [numWrites, stepsWrites, numBumps]

/-- Witness for C10: a concrete `Name` with a path and one generic
argument renders path, dot, identifier and bracketed argument; no root
namespace appears. -/
theorem claim_C10_witness :
    haltFree (wsteps (typeNameSteps (viewOf ([] : Env)) "types"
      (.mk [⟨"p"⟩] ⟨"N"⟩ [exArg1]))) = true ∧
    emitExpr ([] : Env) "types" (.Name (.mk [⟨"p"⟩] ⟨"N"⟩ [exArg1]))
        noFailSink initState =
      .ok ((),
        { buf := "" ++ (dotsAfter [⟨"p"⟩] ++ "N" ++
            (if ([exArg1] : List TypeExpr).isEmpty then ""
             else "<" ++ joinSep ","
               ([exArg1].map fun e => renderExpr [] "types" e) ++ ">"))
          nWrites := 0 + numWrites (wsteps (typeNameSteps
            (viewOf ([] : Env)) "types" (.mk [⟨"p"⟩] ⟨"N"⟩ [exArg1])))
          type_definitions := 0 }) :=
  ⟨by decide,
   claim_C10.1 [] "types" [⟨"p"⟩] ⟨"N"⟩ [exArg1] initState (by decide)⟩

/-- Claim C9: if the sink rejects the `k`-th write, `write_definition_file`
returns that `io::Error` value unchanged, the bytes written are exactly
the payloads of the first `k` writes (nothing further is written, no
retry, no rollback), and no `Stats` value is produced; `Stats` is
returned exactly when every write succeeds. -/
theorem claim_C9 (env : Env) (options : DefinitionFileOptions)
    (info : TypeInfo) (err : IoError) (k : Nat)
    (hh : haltFree (fileSteps env options info) = true) :
    (k < numWrites (fileSteps env options info) →
      ∃ t, write_definition_file env options info
          { failAt := some k, err := err } initState =
        .error (.ioError err,
          { buf := concatStrs
              ((stepsWrites (fileSteps env options info)).take k)
            nWrites := k
            type_definitions := t })) ∧
    write_definition_file env options info noFailSink initState =
      .ok ({ type_definitions := (iter_refs env info).length },
        { buf := renderFile env options info
          nWrites := numWrites (fileSteps env options info)
          type_definitions := (iter_refs env info).length }) := by
  constructor
  · intro hk
    obtain ⟨t, ht⟩ := write_definition_file_fail env options info
      { failAt := some k, err := err } k hh rfl hk
    exact ⟨t, by simpa using ht⟩
  · exact write_definition_file_ok env options info noFailSink hh
      (noFailIn_noFailSink 0 _)

/-- Witness for C9: failing the third write of a concrete run returns the
sink's error unchanged with exactly the first two write payloads
written; the same run with a never-failing sink returns `Stats`. -/
theorem claim_C9_witness :
    haltFree (fileSteps exEnvNative exPlainOptions exInfoNative) = true ∧
    ((2 < numWrites (fileSteps exEnvNative exPlainOptions exInfoNative) →
      ∃ t, write_definition_file exEnvNative exPlainOptions exInfoNative
          { failAt := some 2, err := { code := 7 } } initState =
        .error (.ioError { code := 7 },
          { buf := concatStrs ((stepsWrites (fileSteps exEnvNative
              exPlainOptions exInfoNative)).take 2)
            nWrites := 2
            type_definitions := t })) ∧
    write_definition_file exEnvNative exPlainOptions exInfoNative
        noFailSink initState =
      .ok ({ type_definitions :=
              (iter_refs exEnvNative exInfoNative).length },
        { buf := renderFile exEnvNative exPlainOptions exInfoNative
          nWrites := numWrites (fileSteps exEnvNative exPlainOptions
            exInfoNative)
          type_definitions :=
            (iter_refs exEnvNative exInfoNative).length })) :=
  ⟨by decide,
   claim_C9 exEnvNative exPlainOptions exInfoNative { code := 7 } 2
     (by decide)⟩

/-- Counterexample for C6: the code writes the default-export alias
before opening the root-namespace block, not after closing it.  On an
empty arena the code's output is `export default …` followed by the
namespace block, which differs from the order the claim prescribes. -/
theorem claim_C6_counterexample :
    write_definition_file [] exPlainOptions (.Native (.mk exStr))
        noFailSink initState =
      .ok ({ type_definitions := 0 },
        { buf := "export default types;\nexport namespace types\x7b\n\x7d\n"
          nWrites := 3
          type_definitions := 0 }) ∧
    ("export default types;\nexport namespace types\x7b\n\x7d\n" : String)
      ≠ "export namespace types\x7b\n\x7d\nexport default types;\n" :=
  ⟨rfl, by decide⟩

/-- Claim C6 (amended): the assembler's output order is header,
default-export alias, root-namespace opener, the emitted definitions,
root-namespace closer — the alias precedes the namespace block instead of
following it. -/
theorem claim_C6 (env : Env) (options : DefinitionFileOptions)
    (info : TypeInfo)
    (hh : haltFree (fileSteps env options info) = true) :
    write_definition_file env options info noFailSink initState =
      .ok ({ type_definitions := (iter_refs env info).length },
        { buf := (match options.header with
              | some h => h ++ "\n"
              | none => "") ++
            ("export default " ++ options.root_namespace ++ ";\n") ++
            ("export namespace " ++ options.root_namespace ++ "\x7b\n") ++
            concatWrites (defListSteps env options.root_namespace
              (iter_refs env info)) ++ "\x7d\n"
          nWrites := numWrites (fileSteps env options info)
          type_definitions := (iter_refs env info).length }) := by
  rw [write_definition_file_ok env options info noFailSink hh
    (noFailIn_noFailSink 0 _)]
  rw [renderFile_formula]

/-- Witness for C6 (amended) at a concrete arena. -/
theorem claim_C6_witness :
    haltFree (fileSteps exEnvNative exPlainOptions exInfoNative) = true ∧
    write_definition_file exEnvNative exPlainOptions exInfoNative
        noFailSink initState =
      .ok ({ type_definitions :=
              (iter_refs exEnvNative exInfoNative).length },
        { buf := (match exPlainOptions.header with
              | some h => h ++ "\n"
              | none => "") ++
            ("export default " ++ exPlainOptions.root_namespace ++ ";\n") ++
            ("export namespace " ++ exPlainOptions.root_namespace ++
              "\x7b\n") ++
            concatWrites (defListSteps exEnvNative
              exPlainOptions.root_namespace
              (iter_refs exEnvNative exInfoNative)) ++ "\x7d\n"
          nWrites := numWrites (fileSteps exEnvNative exPlainOptions
            exInfoNative)
          type_definitions :=
            (iter_refs exEnvNative exInfoNative).length }) :=
  ⟨by decide,
   claim_C6 exEnvNative exPlainOptions exInfoNative (by decide)⟩

/-- Counterexample for C5: under the spec's own scheme — a resolver for
which native references are opaque leaves, re-run until no new
definitions are discovered — the definition behind a native-wrapped root
is never discovered, so the fixed point is empty; the code instead
discovers and emits it in its single pass.  The claimed
repeat-until-fixed-point structure is therefore not what
`write_definition_file` does. -/
theorem claim_C5_counterexample :
    specIterRefs exEnvNative exInfoNative = [] ∧
    iter_refs exEnvNative exInfoNative = [0] ∧
    write_definition_file exEnvNative exPlainOptions exInfoNative
        noFailSink initState =
      .ok ({ type_definitions := 1 },
        { buf := "export default types;\nexport namespace types\x7b\n" ++
            "export type Foo=\"x\";\n\x7d\n"
          nWrites := 9
          type_definitions := 1 }) :=
  ⟨rfl, rfl, rfl⟩

/-- Claim C5 (amended): `write_definition_file` computes the closure and
emits it exactly once — `emit_type` is a single playback of one
`iter_refs` pass, with no repetition — and none is needed: the closure
traversal descends through the expression behind a native reference, so a
definition referenced only behind a native reference is still discovered
by the single pass. -/
theorem claim_C5 :
    (∀ (env : Env) (ns : String) (info : TypeInfo),
      emit_type env ns info =
        runSteps (defListSteps env ns (iter_refs env info))) ∧
    (∀ (env : Env) (id : Nat) (d : TypeDefinition), env[id]? = some d →
      id ∈ iter_refs env (.Native (.mk (.Ref (.Defined (.mk id [])))))) := by
  constructor
  · exact emit_type_spec
  · intro env id d hl
    have e1 : walkStep env
        (.expr (.Ref (.Native (.mk (.Ref (.Defined (.mk id []))))))) []
        { visited := [], order := [] } =
        ([.expr (.Ref (.Defined (.mk id [])))],
          { visited := [], order := [] }) := by
      simp [walkStep]
    have e2 : walkStep env (.expr (.Ref (.Defined (.mk id [])))) []
        { visited := [], order := [] } =
        ([.defn id], { visited := [], order := [] }) := by
      simp [walkStep]
    have e3 : walkStep env (.defn id) [] { visited := [], order := [] } =
        ([.expr d.def_, .append id], { visited := [id], order := [] }) := by
      simp [walkStep, hl]
    have hn1 := walkStep_needed env
      (.expr (.Ref (.Native (.mk (.Ref (.Defined (.mk id []))))))) []
      { visited := [], order := [] }
    rw [e1] at hn1
    have hn1' : neededFuel env [.expr (.Ref (.Defined (.mk id [])))]
        { visited := [], order := [] } + 1 ≤
        neededFuel env
          [.expr (.Ref (.Native (.mk (.Ref (.Defined (.mk id []))))))]
          { visited := [], order := [] } := hn1
    have hn2 := walkStep_needed env
      (.expr (.Ref (.Defined (.mk id [])))) [] { visited := [], order := [] }
    rw [e2] at hn2
    have hn2' : neededFuel env [.defn id] { visited := [], order := [] } + 1 ≤
        neededFuel env [.expr (.Ref (.Defined (.mk id [])))]
          { visited := [], order := [] } := hn2
    have hn3 := walkStep_needed env (.defn id) []
      { visited := [], order := [] }
    rw [e3] at hn3
    have hn3' : neededFuel env [.expr d.def_, .append id]
        { visited := [id], order := [] } + 1 ≤
        neededFuel env [.defn id] { visited := [], order := [] } := hn3
    have hF0 : neededFuel env
        [.expr (.Ref (.Native (.mk (.Ref (.Defined (.mk id []))))))]
        { visited := [], order := [] } =
        walkFuel env (.Native (.mk (.Ref (.Defined (.mk id []))))) := rfl
    have p1 := neededFuel_cons_pos env
      (.expr (.Ref (.Defined (.mk id [])))) [] { visited := [], order := [] }
    have p2 := neededFuel_cons_pos env (.defn id) []
      { visited := [], order := [] }
    have p3 := neededFuel_cons_pos env (.expr d.def_) [.append id]
      { visited := [id], order := [] }
    simp only [iter_refs]
    rw [walkWork_cons_big env _ _ _ _ (by omega), e1]
    rw [walkWork_cons_big env _ _ _ _ (by omega), e2]
    rw [walkWork_cons_big env _ _ _ _ (by omega), e3]
    exact walkWork_append_mem env _ _ _ id (by omega) (by simp)

/-- Witness for C5 (amended): the concrete `Foo` definition sitting
behind a native reference is discovered by the single pass. -/
theorem claim_C5_witness :
    exEnvNative[0]? = some exFooDef ∧
    0 ∈ iter_refs exEnvNative
      (.Native (.mk (.Ref (.Defined (.mk 0 []))))) :=
  ⟨rfl, claim_C5.2 exEnvNative 0 exFooDef rfl⟩
